import Mathlib

/-!
Verification of the beam-diagnostics module of APtools
(`src/aptools/data_analysis/beam_diagnostics.py`).

The module is embedded shallowly over `ℚ`.  A particle ensemble of `n`
particles is a family of arrays modelled as functions `ℕ → ℚ` together with
the explicit length `n`; numpy's elementwise operations become pointwise
function operations and `np.average`, `np.cov`, `np.polyfit`, `np.histogram`
are translated into their exact closed forms.  The floating-point square root
`np.sqrt` is abstracted as a function parameter `rsqrt : ℚ → ℚ` that is
threaded through every definition that calls it; theorems that need a
property of the real square root state it as a hypothesis on `rsqrt`, and
witnesses instantiate `rsqrt` with the executable `ratSqrt` below at inputs
where the relevant arguments are perfect squares of rationals.

Helper functions imported by the module from `aptools.helper_functions`
(`weighted_std`, `create_beam_slices`, `slope_of_correlation`) are not part
of the analysed sources; they are modelled from the specification and marked
as such in their doc comments.
-/

namespace APtools

/-- Fuel-based linear search for the integer square root: starting from
candidate `k`, keeps incrementing while the next square still fits below `m`.
Structural recursion on the fuel keeps it kernel-reducible (so `decide` can
evaluate it), unlike `Nat.sqrt`. -/
def sqrtFuel (m : ℕ) : ℕ → ℕ → ℕ
  | 0, k => k
  | fuel + 1, k => if (k + 1) * (k + 1) ≤ m then sqrtFuel m fuel (k + 1) else k

/-- Kernel-reducible integer square root (exact on perfect squares). -/
def natSqrtLin (m : ℕ) : ℕ := sqrtFuel m m 0

/-- Executable rational square root used to instantiate the abstract `rsqrt`
in witnesses.  On a nonnegative rational whose numerator and denominator are
perfect squares it returns the exact nonnegative square root; elsewhere it
returns some junk nonnegative value (witnesses only evaluate it on perfect
squares). -/
def ratSqrt (q : ℚ) : ℚ :=
  if 0 ≤ q then (natSqrtLin q.num.natAbs : ℚ) / (natSqrtLin q.den : ℚ) else 0

/-- Weighted mean `np.average(v, weights=w)` over indices `0 .. n-1`:
`Σ wᵢ vᵢ / Σ wᵢ`. -/
def avgw (n : ℕ) (v w : ℕ → ℚ) : ℚ :=
  (∑ i ∈ Finset.range n, w i * v i) / ∑ i ∈ Finset.range n, w i

/-- Denominator of the degree-1 weighted least-squares slope for independent
variable `X` with quadratic weights `om`. -/
def wls_den (n : ℕ) (X om : ℕ → ℚ) : ℚ :=
  (∑ i ∈ Finset.range n, om i) * (∑ i ∈ Finset.range n, om i * X i ^ 2) -
    (∑ i ∈ Finset.range n, om i * X i) ^ 2

/-- Slope of the degree-1 least-squares fit of `Y` against `X` minimising
`Σ omᵢ (a Xᵢ + b − Yᵢ)²` (normal-equation closed form). -/
def wls_slope (n : ℕ) (X Y om : ℕ → ℚ) : ℚ :=
  ((∑ i ∈ Finset.range n, om i) * (∑ i ∈ Finset.range n, om i * X i * Y i) -
      (∑ i ∈ Finset.range n, om i * X i) * (∑ i ∈ Finset.range n, om i * Y i)) /
    wls_den n X om

/-- Slope returned by `np.polyfit(X, Y, 1, w=w)`.  numpy multiplies the
residuals (not the squared residuals) by `w`, so the effective quadratic
weights are `w²`. -/
def polyfit_lin_slope (n : ℕ) (X Y w : ℕ → ℚ) : ℚ :=
  wls_slope n X Y (fun i => w i ^ 2)

/-- Slope returned by the unweighted `np.polyfit(X, Y, 1)`: ordinary least
squares, i.e. all residual weights 1. -/
def polyfit_lin_slope_unw (n : ℕ) (X Y : ℕ → ℚ) : ℚ :=
  wls_slope n X Y (fun _ => 1)

/-- Modelled from the spec: `slope_of_correlation(y, x, w)` from
`aptools.helper_functions` (not among the analysed sources) is the slope of a
degree-1 weighted least-squares fit of the dependent `y` against the
independent `x` with statistical weights `w` (spec section 4.1,
`weightedPolyfitSlope`, and 4.3, `removeLinearCorrelation`). -/
def slope_of_correlation (n : ℕ) (y x w : ℕ → ℚ) : ℚ :=
  wls_slope n x y w

/-- Modelled from the spec: `weighted_std(v, weights=w)` from
`aptools.helper_functions` (not among the analysed sources) is the population
weighted standard deviation (spec section 4.1, `weightedStd`); its square is
the weighted variance below. -/
def wvariance (n : ℕ) (v w : ℕ → ℚ) : ℚ :=
  (∑ i ∈ Finset.range n, w i * (v i - avgw n v w) ^ 2) / ∑ i ∈ Finset.range n, w i

/-- Modelled from the spec: `weighted_std` itself, the square root of the
weighted variance, with `np.sqrt` abstracted as `rsqrt`. -/
def weighted_std (rsqrt : ℚ → ℚ) (n : ℕ) (v w : ℕ → ℚ) : ℚ :=
  rsqrt (wvariance n v w)

/-- Determinant of the 2×2 covariance matrix `np.cov(x, y, aweights=a)`
(default `ddof = 1`): entries are `Σ aᵢ (xᵢ-x̄)(yᵢ-ȳ) / (V₁ - V₂/V₁)` with
`V₁ = Σ aᵢ`, `V₂ = Σ aᵢ²` and `x̄, ȳ` the `a`-weighted means. -/
def cov_det (n : ℕ) (x y a : ℕ → ℚ) : ℚ :=
  let V1 := ∑ i ∈ Finset.range n, a i
  let V2 := ∑ i ∈ Finset.range n, a i ^ 2
  let xm := (∑ i ∈ Finset.range n, a i * x i) / V1
  let ym := (∑ i ∈ Finset.range n, a i * y i) / V1
  let den := V1 - V2 / V1
  let cxx := (∑ i ∈ Finset.range n, a i * (x i - xm) ^ 2) / den
  let cyy := (∑ i ∈ Finset.range n, a i * (y i - ym) ^ 2) / den
  let cxy := (∑ i ∈ Finset.range n, a i * (x i - xm) * (y i - ym)) / den
  cxx * cyy - cxy ^ 2

/-- Momentum magnitude array `gamma = np.sqrt(px² + py² + pz²)`. -/
def gamma_arr (rsqrt : ℚ → ℚ) (px py pz : ℕ → ℚ) : ℕ → ℚ :=
  fun i => rsqrt (px i ^ 2 + py i ^ 2 + pz i ^ 2)

/-- Weighted mean of the momentum magnitude, `np.average(gamma, weights=w)`. -/
def gamma_average (rsqrt : ℚ → ℚ) (n : ℕ) (px py pz w : ℕ → ℚ) : ℚ :=
  avgw n (gamma_arr rsqrt px py pz) w

/-- Fractional momentum deviation `dgamma = (gamma - gamma_avg)/gamma_avg`. -/
def dgamma_arr (rsqrt : ℚ → ℚ) (n : ℕ) (px py pz w : ℕ → ℚ) : ℕ → ℚ :=
  fun i => (gamma_arr rsqrt px py pz i - gamma_average rsqrt n px py pz w) /
    gamma_average rsqrt n px py pz w

/-- Helper 3×3 determinant for the degree-2 weighted polynomial fit. -/
def det3 (a b c d e f g h i : ℚ) : ℚ :=
  a * (e * i - f * h) - b * (d * i - f * g) + c * (d * h - e * g)

/-- Quadratic and linear coefficients `(p[0], p[1])` of
`np.polyfit(X, Y, 2, w=w)` (effective quadratic weights `w²`), by Cramer's
rule on the normal equations. -/
def polyfit_quad_coeffs (n : ℕ) (X Y w : ℕ → ℚ) : ℚ × ℚ :=
  let om := fun i => w i ^ 2
  let S0 := ∑ i ∈ Finset.range n, om i
  let S1 := ∑ i ∈ Finset.range n, om i * X i
  let S2 := ∑ i ∈ Finset.range n, om i * X i ^ 2
  let S3 := ∑ i ∈ Finset.range n, om i * X i ^ 3
  let S4 := ∑ i ∈ Finset.range n, om i * X i ^ 4
  let T0 := ∑ i ∈ Finset.range n, om i * Y i
  let T1 := ∑ i ∈ Finset.range n, om i * X i * Y i
  let T2 := ∑ i ∈ Finset.range n, om i * X i ^ 2 * Y i
  let D := det3 S4 S3 S2 S3 S2 S1 S2 S1 S0
  (det3 T2 S3 S2 T1 S2 S1 T0 S1 S0 / D, det3 S4 T2 S2 S3 T1 S1 S2 T0 S0 / D)

/-- `normalized_transverse_rms_emittance(x, px, py, pz, w, disp_corrected)`
(beam_diagnostics.py lines 332-379): for fewer than 2 particles returns 0;
otherwise optionally removes the quadratic `x`-`dgamma` correlation
(`np.polyfit(dgamma, x, 2, w=w)`), then returns
`sqrt(det(np.cov(x, px, aweights=|w|)))`. -/
def normalized_transverse_rms_emittance (rsqrt : ℚ → ℚ) (n : ℕ)
    (x px py pz w : ℕ → ℚ) (disp_corrected : Bool) : ℚ :=
  if 1 < n then
    let x2 :=
      if disp_corrected then
        let dgamma := dgamma_arr rsqrt n px py pz w
        let p := polyfit_quad_coeffs n dgamma x w
        fun i => x i - p.2 * dgamma i - p.1 * dgamma i ^ 2
      else x
    rsqrt (cov_det n x2 px (fun i => |w i|))
  else 0

/-- `geometric_transverse_rms_emittance(x, px, py, pz, w, disp_corrected)`
(lines 381-413): the normalized phase-space emittance divided by the weighted
mean momentum magnitude. -/
def geometric_transverse_rms_emittance (rsqrt : ℚ → ℚ) (n : ℕ)
    (x px py pz w : ℕ → ℚ) (disp_corrected : Bool) : ℚ :=
  normalized_transverse_rms_emittance rsqrt n x px py pz w disp_corrected /
    gamma_average rsqrt n px py pz w

/-- `transverse_trace_space_rms_emittance(x, px, py, pz, w, disp_corrected)`
(lines 449-494): for fewer than 2 particles returns 0; otherwise computes
`xp = px/pz`, optionally removes the linear `x`-`dgamma` and `xp`-`dgamma`
correlations (via `slope_of_correlation`), then returns
`sqrt(det(np.cov(x, xp, aweights=|w|)))`. -/
def transverse_trace_space_rms_emittance (rsqrt : ℚ → ℚ) (n : ℕ)
    (x px py pz w : ℕ → ℚ) (disp_corrected : Bool) : ℚ :=
  if 1 < n then
    let xp := fun i => px i / pz i
    let xw :=
      if disp_corrected then
        let dgamma := dgamma_arr rsqrt n px py pz w
        let sl := slope_of_correlation n x dgamma w
        let sl2 := slope_of_correlation n xp dgamma w
        ((fun i => x i - sl * dgamma i), (fun i => xp i - sl2 * dgamma i))
      else (x, xp)
    rsqrt (cov_det n xw.1 xw.2 (fun i => |w i|))
  else 0

/-- Total energy array `np.sqrt(1 + px² + py² + pz²)`. -/
def energy_arr (rsqrt : ℚ → ℚ) (px py pz : ℕ → ℚ) : ℕ → ℚ :=
  fun i => rsqrt (1 + px i ^ 2 + py i ^ 2 + pz i ^ 2)

/-- `rms_length(z, w)` (lines 127-143): the weighted standard deviation of
the longitudinal positions. -/
def rms_length (rsqrt : ℚ → ℚ) (n : ℕ) (z w : ℕ → ℚ) : ℚ :=
  weighted_std rsqrt n z w

/-- `mean_kinetic_energy(px, py, pz, w)` (lines 163-186): the mean of the
momentum magnitude weighted by the absolute weights,
`np.average(np.sqrt(px²+py²+pz²), weights=np.abs(w))`. -/
def mean_kinetic_energy (rsqrt : ℚ → ℚ) (n : ℕ) (px py pz w : ℕ → ℚ) : ℚ :=
  avgw n (gamma_arr rsqrt px py pz) (fun i => |w i|)

/-- `mean_energy(px, py, pz, w)` (lines 188-210): the source computes
`np.average(1 + np.sqrt(np.square(kin_ene)))` on the scalar mean kinetic
energy, i.e. `1 + rsqrt(kin_ene²)` (`np.average` of a scalar without weights
is the scalar itself). -/
def mean_energy (rsqrt : ℚ → ℚ) (n : ℕ) (px py pz w : ℕ → ℚ) : ℚ :=
  1 + rsqrt (mean_kinetic_energy rsqrt n px py pz w ^ 2)

/-- `rms_energy_spread(px, py, pz, w)` (lines 212-237): weighted standard
deviation of the total energy `sqrt(1+px²+py²+pz²)`. -/
def rms_energy_spread (rsqrt : ℚ → ℚ) (n : ℕ) (px py pz w : ℕ → ℚ) : ℚ :=
  weighted_std rsqrt n (energy_arr rsqrt px py pz) w

/-- `relative_rms_energy_spread(px, py, pz, w)` (lines 239-265): absolute
spread divided by mean energy. -/
def relative_rms_energy_spread (rsqrt : ℚ → ℚ) (n : ℕ) (px py pz w : ℕ → ℚ) : ℚ :=
  rms_energy_spread rsqrt n px py pz w / mean_energy rsqrt n px py pz w

/-- `longitudinal_energy_chirp(z, px, py, pz, w)` (lines 267-298): computes
the total energy, the `w`-weighted mean energy and mean position, the
relative energy deviation `dE_rel` and centred position `dz`, then returns
the slope of the unweighted `np.polyfit(dz, dE_rel, 1)`. -/
def longitudinal_energy_chirp (rsqrt : ℚ → ℚ) (n : ℕ) (z px py pz w : ℕ → ℚ) : ℚ :=
  let ene := energy_arr rsqrt px py pz
  let mean_ene := avgw n ene w
  let mean_z := avgw n z w
  let dE_rel := fun i => (ene i - mean_ene) / mean_ene
  let dz := fun i => z i - mean_z
  polyfit_lin_slope_unw n dz dE_rel

/-- `rms_correlated_energy_spread(z, px, py, pz, w)` (lines 300-330): the
weighted standard deviation of `K * (z - mean_z)` with `K` the longitudinal
energy chirp. -/
def rms_correlated_energy_spread (rsqrt : ℚ → ℚ) (n : ℕ) (z px py pz w : ℕ → ℚ) : ℚ :=
  let K := longitudinal_energy_chirp rsqrt n z px py pz w
  let mean_z := avgw n z w
  weighted_std rsqrt n (fun i => K * (z i - mean_z)) w

/-- Minimum of the array entries `z 0 .. z (n-1)` (`np.min`; the `n = 0`
value is arbitrary since numpy raises there). -/
def amin : ℕ → (ℕ → ℚ) → ℚ
  | 0, z => z 0
  | n + 1, z => min (amin n z) (z n)

/-- Maximum of the array entries `z 0 .. z (n-1)` (`np.max`). -/
def amax : ℕ → (ℕ → ℚ) → ℚ
  | 0, z => z 0
  | n + 1, z => max (amax n z) (z n)

/-- Modelled from the spec: `create_beam_slices(z, n_slices, len_slice)` from
`aptools.helper_functions` (not among the analysed sources).  Per spec
section 4.2, if a slice length is given the slice count is
`floor((max(z)-min(z))/len_slice)`, otherwise `n_slices` is used directly;
the returned edges are `n_slices+1` uniformly spaced values from `min(z)` to
`max(z)`.  Returns the edge function and the effective slice count. -/
def create_beam_slices (n : ℕ) (z : ℕ → ℚ) (n_slices : ℕ) (len_slice : Option ℚ) :
    (ℕ → ℚ) × ℕ :=
  let mn := amin n z
  let mx := amax n z
  let ns : ℕ := match len_slice with
    | none => n_slices
    | some L => (⌊(mx - mn) / L⌋).toNat
  (fun i => mn + (i : ℚ) * (mx - mn) / (ns : ℚ), ns)

/-- Slice membership test used by the slice loops (lines 565 and 626):
`(z > a) & (z <= b)` with `a, b` consecutive slice edges. -/
def in_slice (lims : ℕ → ℚ) (i : ℕ) (v : ℚ) : Prop :=
  lims i < v ∧ v ≤ lims (i + 1)

instance (lims : ℕ → ℚ) (i : ℕ) (v : ℚ) : Decidable (in_slice lims i v) := by
  unfold in_slice; infer_instance

/-- Indices of the particles belonging to slice `i`
(`slice_particle_filter`). -/
def slice_idxs (n : ℕ) (lims : ℕ → ℚ) (z : ℕ → ℚ) (i : ℕ) : List ℕ :=
  (List.range n).filter (fun j => decide (in_slice lims i (z j)))

/-- Subarray selection: the array `f` restricted to the index list `idx`
(boolean-mask indexing in the source). -/
def subarr (idx : List ℕ) (f : ℕ → ℚ) : ℕ → ℚ :=
  fun k => f (idx.getD k 0)

/-- `relative_rms_slice_energy_spread(z, px, py, pz, w, n_slices, len_slice)`
(lines 525-578): slices the ensemble along `z`, computes the relative RMS
energy spread of each non-empty slice and its total weight, and returns the
per-slice values, the per-slice weights and the slice edges.  Empty slices
keep value 0 and weight 0. -/
def relative_rms_slice_energy_spread (rsqrt : ℚ → ℚ) (n : ℕ)
    (z px py pz w : ℕ → ℚ) (n_slices : ℕ) (len_slice : Option ℚ) :
    (ℕ → ℚ) × (ℕ → ℚ) × (ℕ → ℚ) :=
  let sl := create_beam_slices n z n_slices len_slice
  let lims := sl.1
  (fun i =>
      let idx := slice_idxs n lims z i
      if idx.isEmpty then 0
      else relative_rms_energy_spread rsqrt idx.length (subarr idx px)
        (subarr idx py) (subarr idx pz) (subarr idx w),
    fun i =>
      let idx := slice_idxs n lims z i
      if idx.isEmpty then 0 else (idx.map w).sum,
    lims)

/-- `normalized_transverse_rms_slice_emittance(z, x, px, py, pz, w,
disp_corrected, n_slices, len_slice)` (lines 580-645): slices the ensemble
along `z`, computes the normalized transverse RMS emittance of each
non-empty slice and its total weight, and returns the per-slice values, the
per-slice weights and the slice edges.  Empty slices keep value 0 and
weight 0. -/
def normalized_transverse_rms_slice_emittance (rsqrt : ℚ → ℚ) (n : ℕ)
    (z x px py pz w : ℕ → ℚ) (disp_corrected : Bool) (n_slices : ℕ)
    (len_slice : Option ℚ) : (ℕ → ℚ) × (ℕ → ℚ) × (ℕ → ℚ) :=
  let sl := create_beam_slices n z n_slices len_slice
  let lims := sl.1
  (fun i =>
      let idx := slice_idxs n lims z i
      if idx.isEmpty then 0
      else normalized_transverse_rms_emittance rsqrt idx.length (subarr idx x)
        (subarr idx px) (subarr idx py) (subarr idx pz) (subarr idx w)
        disp_corrected,
    fun i =>
      let idx := slice_idxs n lims z i
      if idx.isEmpty then 0 else (idx.map w).sum,
    lims)

/-- Speed of light in m/s (`scipy.constants.c`, exact). -/
def c_light : ℚ := 299792458

/-- Histogram bin edge `i` of `np.histogram(z, bins=ns)`: `ns+1` uniformly
spaced values from `min(z)` to `max(z)`. -/
def bin_edge (mn mx : ℚ) (ns i : ℕ) : ℚ :=
  mn + i * (mx - mn) / ns

/-- Bin membership of `np.histogram`: every bin is half-open
`[edge_i, edge_{i+1})` except the last, which also includes its right
edge. -/
def in_bin (mn mx : ℚ) (ns i : ℕ) (v : ℚ) : Prop :=
  bin_edge mn mx ns i ≤ v ∧
    (v < bin_edge mn mx ns (i + 1) ∨ (i + 1 = ns ∧ v ≤ bin_edge mn mx ns (i + 1)))

instance (mn mx : ℚ) (ns i : ℕ) (v : ℚ) : Decidable (in_bin mn mx ns i v) := by
  unfold in_bin; infer_instance

/-- Effective slice count of `current_profile`: if a slice length is given,
`int((max(z)-min(z))/len_slice)`, otherwise `n_slices`. -/
def cp_n_slices (n : ℕ) (z : ℕ → ℚ) (n_slices : ℕ) (len_slice : Option ℚ) : ℕ :=
  match len_slice with
  | none => n_slices
  | some L => (⌊(amax n z - amin n z) / L⌋).toNat

/-- Charge collected by histogram bin `i`:
`np.histogram(z, bins=ns, weights=q)`. -/
def charge_hist (n : ℕ) (z q : ℕ → ℚ) (ns i : ℕ) : ℚ :=
  ∑ j ∈ (Finset.range n).filter (fun j => in_bin (amin n z) (amax n z) ns i (z j)), q j

/-- `current_profile(z, q, n_slices, len_slice)` (lines 647-677): histograms
the charge over the adjusted slice count, divides each bin total by the
slice duration `adj_slice_len / c` and returns the per-bin currents and the
bin edges. -/
def current_profile (n : ℕ) (z q : ℕ → ℚ) (n_slices : ℕ) (len_slice : Option ℚ) :
    (ℕ → ℚ) × (ℕ → ℚ) :=
  let mn := amin n z
  let mx := amax n z
  let ns := cp_n_slices n z n_slices len_slice
  let adj_slice_len := (mx - mn) / ns
  let sl_dur := adj_slice_len / c_light
  (fun i => charge_hist n z q ns i / sl_dur, fun i => bin_edge mn mx ns i)

/-- The `emitt` flag of `twiss_parameters`: `'tr'` (trace-space) or `'ph'`
(phase-space). -/
inductive Emitt where
  | tr : Emitt
  | ph : Emitt
deriving DecidableEq

/-- Result of `twiss_parameters`, together with the caller-visible final
contents of the caller-supplied arrays.  In the Python source `x -= ...` and
`px -= ...` are in-place numpy operations that mutate the caller's arrays,
while `xp = px/pz`, `x = x - ...` and the like rebind local names; the
`xf/pxf/pyf/pzf/wf` fields record the array contents the caller observes
after the call returns. -/
structure TwissOut where
  a : ℚ
  b : ℚ
  g : ℚ
  xf : ℕ → ℚ
  pxf : ℕ → ℚ
  pyf : ℕ → ℚ
  pzf : ℕ → ℚ
  wf : ℕ → ℚ

/-- `twiss_parameters(x, px, pz, py, w, emitt, disp_corrected)` (lines
10-82).  Phase-space branch: computes the phase-space emittance, centres `x`
and `px` in place on their weighted means, optionally removes the linear
`x`-`dgamma` correlation in place, and forms `beta = <x²> γavg / em`,
`alpha = -<x px> / em`.  Trace-space branch: computes the trace-space
emittance, forms `xp = px/pz` (a fresh array), centres `x` (in place) and
`xp`, optionally removes the linear correlations of `x` (in place) and `xp`
against `dgamma`, and forms `beta = <x²>/em`, `alpha = -<x xp>/em`.  Both:
`gamma = (1+alpha²)/beta`. -/
def twiss_parameters (rsqrt : ℚ → ℚ) (n : ℕ) (x px pz py w : ℕ → ℚ)
    (emitt : Emitt) (disp_corrected : Bool) : TwissOut :=
  match emitt with
  | .ph =>
    let em_x := normalized_transverse_rms_emittance rsqrt n x px py pz w disp_corrected
    let gamma_avg := gamma_average rsqrt n px py pz w
    let x1 := fun i => x i - avgw n x w
    let px1 := fun i => px i - avgw n px w
    let x2 :=
      if disp_corrected then
        let dgamma := dgamma_arr rsqrt n px py pz w
        fun i => x1 i - slope_of_correlation n x1 dgamma w * dgamma i
      else x1
    let b_x := avgw n (fun i => x2 i ^ 2) w * gamma_avg / em_x
    let a_x := -avgw n (fun i => x2 i * px1 i) w / em_x
    ⟨a_x, b_x, (1 + a_x ^ 2) / b_x, x2, px1, py, pz, w⟩
  | .tr =>
    let em_x := transverse_trace_space_rms_emittance rsqrt n x px py pz w disp_corrected
    let xp := fun i => px i / pz i
    let x1 := fun i => x i - avgw n x w
    let xp1 := fun i => xp i - avgw n xp w
    let xxp2 :=
      if disp_corrected then
        let dgamma := dgamma_arr rsqrt n px py pz w
        ((fun i => x1 i - slope_of_correlation n x1 dgamma w * dgamma i),
          (fun i => xp1 i - slope_of_correlation n xp1 dgamma w * dgamma i))
      else (x1, xp1)
    let b_x := avgw n (fun i => xxp2.1 i ^ 2) w / em_x
    let a_x := -avgw n (fun i => xxp2.1 i * xxp2.2 i) w / em_x
    ⟨a_x, b_x, (1 + a_x ^ 2) / b_x, xxp2.1, px, py, pz, w⟩

/-- `twiss_parameters_corrected(x, px, py, pz, w)` (lines 84-125): removes
the linear `x`-`dgamma` and `xp`-`dgamma` correlations via
`np.polyfit(dgamma, ·, 1, w=w)` (rebinding, not mutating), rebuilds
`px = xp * pz`, and then delegates via the call
`twiss_parameters(x, px, pz, w)` — which positionally binds the weights `w`
to the unused `py` parameter and leaves the weight parameter at its default
`1` (modelled, per the spec's scalar-broadcast semantics, as the constant
weight array 1). -/
def twiss_parameters_corrected (rsqrt : ℚ → ℚ) (n : ℕ) (x px py pz w : ℕ → ℚ) :
    TwissOut :=
  let dgamma := dgamma_arr rsqrt n px py pz w
  let slope := polyfit_lin_slope n dgamma x w
  let x2 := fun i => x i - slope * dgamma i
  let xp := fun i => px i / pz i
  let slope2 := polyfit_lin_slope n dgamma xp w
  let xp2 := fun i => xp i - slope2 * dgamma i
  let px2 := fun i => xp2 i * pz i
  twiss_parameters rsqrt n x2 px2 pz w (fun _ => 1) Emitt.tr false

/-- Claim-side model of `twissParametersDispersionCorrected` (claim C1): the
same two linear correlation removals, followed by the uncorrected
trace-space `twiss_parameters` computation on the corrected `x` and
corrected momenta with the same weights `w`. -/
def twiss_parameters_corrected_claim (rsqrt : ℚ → ℚ) (n : ℕ)
    (x px py pz w : ℕ → ℚ) : TwissOut :=
  let dgamma := dgamma_arr rsqrt n px py pz w
  let slope := polyfit_lin_slope n dgamma x w
  let x2 := fun i => x i - slope * dgamma i
  let xp := fun i => px i / pz i
  let slope2 := polyfit_lin_slope n dgamma xp w
  let xp2 := fun i => xp i - slope2 * dgamma i
  let px2 := fun i => xp2 i * pz i
  twiss_parameters rsqrt n x2 px2 pz py w Emitt.tr false

/-- Sum of squared residuals of the affine model `Y ≈ a·X + b` (no
weights). -/
def sse (n : ℕ) (X Y : ℕ → ℚ) (a b : ℚ) : ℚ :=
  ∑ i ∈ Finset.range n, (Y i - (a * X i + b)) ^ 2

/-- Intercept paired with the unweighted least-squares slope. -/
def ols_intercept (n : ℕ) (X Y : ℕ → ℚ) : ℚ :=
  ((∑ i ∈ Finset.range n, Y i) -
      polyfit_lin_slope_unw n X Y * ∑ i ∈ Finset.range n, X i) / (n : ℚ)

/-- Centred longitudinal positions `dz = z - mean_z` used by the chirp
regression (mean `w`-weighted). -/
def chirp_dz (n : ℕ) (z w : ℕ → ℚ) : ℕ → ℚ :=
  fun i => z i - avgw n z w

/-- Relative energy deviations `dE_rel = (ene - mean_ene)/mean_ene` used by
the chirp regression (mean `w`-weighted). -/
def chirp_dE (rsqrt : ℚ → ℚ) (n : ℕ) (px py pz w : ℕ → ℚ) : ℕ → ℚ :=
  fun i => (energy_arr rsqrt px py pz i - avgw n (energy_arr rsqrt px py pz) w) /
    avgw n (energy_arr rsqrt px py pz) w

/-- Concrete 4-particle failing input for claim C1: positions. -/
def xC1 : ℕ → ℚ := fun i => [(-2 : ℚ), 2, -2, 2].getD i 0

/-- Concrete failing input for claim C1: transverse momenta. -/
def pxC1 : ℕ → ℚ := fun i => [(1 : ℚ), 1, 2, 2].getD i 0

/-- Concrete failing input for claim C1: opposite-plane momenta, chosen so
that every `px² + py² + pz²` is a perfect square of a rational
(`9/4, 9, 81/4, 9`). -/
def pyC1 : ℕ → ℚ := fun i => [(1 / 2 : ℚ), 2, 7 / 2, 2].getD i 0

/-- Concrete failing input for claim C1: longitudinal momenta. -/
def pzC1 : ℕ → ℚ := fun i => [(1 : ℚ), 2, 2, 1].getD i 0

/-- Concrete failing input for claim C1: non-uniform statistical weights. -/
def wC1 : ℕ → ℚ := fun i => [(1 : ℚ), 1, 1, 2].getD i 0

theorem sqrtFuel_spec (m n : ℕ) (hn : n * n ≤ m) (hm : m < (n + 1) * (n + 1)) :
    ∀ fuel k, k ≤ n → n ≤ k + fuel → sqrtFuel m fuel k = n := by
  intro fuel
  induction fuel with
  | zero =>
    intro k hk hnk
    simp only [Nat.add_zero] at hnk
    simpa [sqrtFuel] using le_antisymm hk hnk
  | succ fuel ih =>
    intro k hk hnk
    by_cases h : (k + 1) * (k + 1) ≤ m
    · have hlt : (k + 1) * (k + 1) < (n + 1) * (n + 1) := lt_of_le_of_lt h hm
      have hkn : k + 1 ≤ n := by
        by_contra hc
        exact absurd (Nat.mul_le_mul (Nat.succ_le_of_lt (Nat.lt_of_not_le hc))
          (Nat.succ_le_of_lt (Nat.lt_of_not_le hc))) (Nat.not_le_of_lt hlt)
      have : sqrtFuel m (fuel + 1) k = sqrtFuel m fuel (k + 1) := by
        simp [sqrtFuel, h]
      rw [this]
      exact ih (k + 1) hkn (by omega)
    · have hnk1 : n ≤ k := by
        by_contra hc
        have h1 : k + 1 ≤ n := Nat.succ_le_of_lt (Nat.lt_of_not_le hc)
        exact h (le_trans (Nat.mul_le_mul h1 h1) hn)
      have hk' : k = n := le_antisymm hk hnk1
      subst hk'
      simp [sqrtFuel, h]

theorem natSqrtLin_mul_self (n : ℕ) : natSqrtLin (n * n) = n := by
  have hle : n ≤ n * n := by nlinarith [Nat.zero_le n]
  exact sqrtFuel_spec (n * n) n (le_refl _) (by nlinarith) (n * n) 0 (Nat.zero_le n)
    (by omega)

theorem ratSqrt_nonneg (q : ℚ) : 0 ≤ ratSqrt q := by
  unfold ratSqrt
  split
  · positivity
  · exact le_refl 0

theorem ratSqrt_sq {a : ℚ} (ha : 0 ≤ a) : ratSqrt (a ^ 2) = a := by
  have h2 : (0 : ℚ) ≤ a ^ 2 := sq_nonneg a
  have hnum : (a ^ 2).num = a.num * a.num := by rw [sq, Rat.mul_self_num]
  have hden : (a ^ 2).den = a.den * a.den := by rw [sq, Rat.mul_self_den]
  have hnn : 0 ≤ a.num := Rat.num_nonneg.mpr ha
  rw [ratSqrt, if_pos h2, hnum, hden, Int.natAbs_mul, natSqrtLin_mul_self,
    natSqrtLin_mul_self]
  have hcast : ((a.num.natAbs : ℕ) : ℚ) = ((a.num : ℤ) : ℚ) := by
    rw [Int.cast_natAbs, abs_of_nonneg (by exact_mod_cast hnn)]
  rw [hcast, Rat.num_div_den]

theorem sqrtFuel_ge (m : ℕ) : ∀ fuel k, k ≤ sqrtFuel m fuel k := by
  intro fuel
  induction fuel with
  | zero => intro k; simp [sqrtFuel]
  | succ fuel ih =>
    intro k
    by_cases h : (k + 1) * (k + 1) ≤ m
    · simpa [sqrtFuel, h] using le_trans (Nat.le_succ k) (ih (k + 1))
    · simp [sqrtFuel, h]

theorem natSqrtLin_pos {m : ℕ} (hm : 0 < m) : 0 < natSqrtLin m := by
  obtain ⟨m0, rfl⟩ := Nat.exists_eq_succ_of_ne_zero (Nat.pos_iff_ne_zero.mp hm)
  have h1 : (0 + 1) * (0 + 1) ≤ m0 + 1 := by omega
  calc 0 < 1 := Nat.one_pos
    _ ≤ sqrtFuel (m0 + 1) m0 1 := sqrtFuel_ge _ _ _
    _ = natSqrtLin (m0 + 1) := by simp [natSqrtLin, sqrtFuel, h1]

theorem ratSqrt_pos {q : ℚ} (hq : 0 < q) : 0 < ratSqrt q := by
  rw [ratSqrt, if_pos hq.le]
  have hnum : 0 < q.num.natAbs := Int.natAbs_pos.mpr (ne_of_gt (Rat.num_pos.mpr hq))
  have hden : 0 < q.den := q.pos
  have h1 : (0 : ℚ) < (natSqrtLin q.num.natAbs : ℚ) := by
    exact_mod_cast natSqrtLin_pos hnum
  have h2 : (0 : ℚ) < (natSqrtLin q.den : ℚ) := by
    exact_mod_cast natSqrtLin_pos hden
  positivity

theorem amin_le {n : ℕ} (z : ℕ → ℚ) {i : ℕ} (hi : i < n) : amin n z ≤ z i := by
  induction n with
  | zero => omega
  | succ n ih =>
    rcases Nat.lt_succ_iff_lt_or_eq.mp hi with h | h
    · exact le_trans (min_le_left _ _) (ih h)
    · subst h; exact min_le_right _ _

theorem le_amax {n : ℕ} (z : ℕ → ℚ) {i : ℕ} (hi : i < n) : z i ≤ amax n z := by
  induction n with
  | zero => omega
  | succ n ih =>
    rcases Nat.lt_succ_iff_lt_or_eq.mp hi with h | h
    · exact le_trans (ih h) (le_max_left _ _)
    · subst h; exact le_max_right _ _

theorem amin_le_amax {n : ℕ} (z : ℕ → ℚ) (hn : 0 < n) : amin n z ≤ amax n z :=
  le_trans (amin_le z hn) (le_amax z hn)

/-- Claim C4: for every input on which the division defining the geometric
emittance is legitimate (nonzero weighted mean momentum magnitude
`gammaAvg`, zero being the division-by-zero domain error of the spec),
`geometricEmittance * gammaAvg` equals `phaseSpaceRmsEmittance`, where
`gammaAvg` is the weighted mean of `sqrt(px²+py²+pz²)` with weights `w`. -/
theorem geometric_emittance_times_gamma_avg (rsqrt : ℚ → ℚ) (n : ℕ)
    (x px py pz w : ℕ → ℚ) (disp_corrected : Bool)
    (hg : gamma_average rsqrt n px py pz w ≠ 0) :
    geometric_transverse_rms_emittance rsqrt n x px py pz w disp_corrected *
        gamma_average rsqrt n px py pz w =
      normalized_transverse_rms_emittance rsqrt n x px py pz w disp_corrected := by
  unfold geometric_transverse_rms_emittance
  exact div_mul_cancel₀ _ hg

theorem geometric_emittance_times_gamma_avg_witness :
    gamma_average ratSqrt 2 (fun _ => 3) (fun _ => 0) (fun _ => 4) (fun _ => 1) ≠ 0 ∧
      geometric_transverse_rms_emittance ratSqrt 2 (fun _ => 0) (fun _ => 3)
          (fun _ => 0) (fun _ => 4) (fun _ => 1) false *
          gamma_average ratSqrt 2 (fun _ => 3) (fun _ => 0) (fun _ => 4) (fun _ => 1) =
        normalized_transverse_rms_emittance ratSqrt 2 (fun _ => 0) (fun _ => 3)
          (fun _ => 0) (fun _ => 4) (fun _ => 1) false := by
  have h25 : ratSqrt 25 = 5 := by
    rw [show (25 : ℚ) = 5 ^ 2 by norm_num]
    exact ratSqrt_sq (by norm_num)
  have hg : gamma_average ratSqrt 2 (fun _ => 3) (fun _ => 0) (fun _ => 4)
      (fun _ => 1) = 5 := by
    simp only [gamma_average, gamma_arr, avgw, Finset.sum_range_succ,
      Finset.sum_range_zero]
    norm_num [h25]
  have hg' : gamma_average ratSqrt 2 (fun _ => 3) (fun _ => 0) (fun _ => 4)
      (fun _ => 1) ≠ 0 := by rw [hg]; norm_num
  exact ⟨hg', geometric_emittance_times_gamma_avg ratSqrt 2 _ _ _ _ _ false hg'⟩

/-- Claim C5: with fewer than 2 particles both the phase-space and the
trace-space RMS emittance return 0 (no error is raised: the guarded branch
performs no arithmetic at all), for any weights and any value of the
dispersion-correction flag. -/
theorem emittance_returns_zero_below_two_particles (rsqrt : ℚ → ℚ) (n : ℕ)
    (x px py pz w : ℕ → ℚ) (disp_corrected : Bool) (hn : n < 2) :
    normalized_transverse_rms_emittance rsqrt n x px py pz w disp_corrected = 0 ∧
      transverse_trace_space_rms_emittance rsqrt n x px py pz w disp_corrected = 0 := by
  have h : ¬ 1 < n := by omega
  constructor
  · unfold normalized_transverse_rms_emittance
    rw [if_neg h]
  · unfold transverse_trace_space_rms_emittance
    rw [if_neg h]

theorem emittance_returns_zero_below_two_particles_witness :
    (1 : ℕ) < 2 ∧
      (normalized_transverse_rms_emittance ratSqrt 1 (fun _ => 7) (fun _ => 1)
          (fun _ => 2) (fun _ => 3) (fun _ => 1) true = 0 ∧
        transverse_trace_space_rms_emittance ratSqrt 1 (fun _ => 7) (fun _ => 1)
          (fun _ => 2) (fun _ => 3) (fun _ => 1) true = 0) :=
  ⟨by norm_num,
    emittance_returns_zero_below_two_particles ratSqrt 1 _ _ _ _ _ true (by norm_num)⟩

/-- Claim C8: with positive total weight, `mean_energy` equals
`1 + mean_kinetic_energy`: the source computes `1 + sqrt(kin²)` on the
scalar mean kinetic energy, and that mean is nonnegative because it averages
nonnegative square roots with the absolute weights `|w|`. -/
theorem mean_energy_eq_one_add_kinetic (rsqrt : ℚ → ℚ) (n : ℕ)
    (px py pz w : ℕ → ℚ) (_hw : 0 < ∑ i ∈ Finset.range n, w i)
    (hpos : ∀ i ∈ Finset.range n, 0 ≤ rsqrt (px i ^ 2 + py i ^ 2 + pz i ^ 2))
    (hsq : ∀ a : ℚ, 0 ≤ a → rsqrt (a ^ 2) = a) :
    mean_energy rsqrt n px py pz w = 1 + mean_kinetic_energy rsqrt n px py pz w := by
  have hk : 0 ≤ mean_kinetic_energy rsqrt n px py pz w := by
    unfold mean_kinetic_energy avgw
    apply div_nonneg
    · apply Finset.sum_nonneg
      intro i hi
      exact mul_nonneg (abs_nonneg _) (hpos i hi)
    · apply Finset.sum_nonneg
      intro i _
      exact abs_nonneg _
  unfold mean_energy
  rw [hsq _ hk]

theorem mean_energy_eq_one_add_kinetic_witness :
    (0 < ∑ i ∈ Finset.range 1, (fun _ => (2 : ℚ)) i) ∧
      mean_energy ratSqrt 1 (fun _ => 3) (fun _ => 0) (fun _ => 4) (fun _ => 2) =
        1 + mean_kinetic_energy ratSqrt 1 (fun _ => 3) (fun _ => 0) (fun _ => 4)
          (fun _ => 2) := by
  have hw : 0 < ∑ i ∈ Finset.range 1, (fun _ => (2 : ℚ)) i := by
    simp [Finset.sum_range_succ]
  exact ⟨hw, mean_energy_eq_one_add_kinetic ratSqrt 1 _ _ _ _ hw
    (fun i _ => ratSqrt_nonneg _) (fun a ha => ratSqrt_sq ha)⟩

theorem avgw_center (n : ℕ) (z w : ℕ → ℚ) (K : ℚ)
    (hw : (∑ i ∈ Finset.range n, w i) ≠ 0) :
    avgw n (fun i => K * (z i - avgw n z w)) w = 0 := by
  unfold avgw
  rw [div_eq_zero_iff]
  left
  set S := ∑ i ∈ Finset.range n, w i with hS
  set M := ∑ i ∈ Finset.range n, w i * z i with hM
  have h1 : ∀ i ∈ Finset.range n,
      w i * (K * (z i - M / S)) = K * (w i * z i) - K * (M / S) * w i :=
    fun i _ => by ring
  rw [Finset.sum_congr rfl h1, Finset.sum_sub_distrib, ← Finset.mul_sum,
    ← Finset.mul_sum, ← hS, ← hM, mul_assoc, div_mul_cancel₀ _ hw, sub_self]

theorem wvariance_smul_center (n : ℕ) (z w : ℕ → ℚ) (K : ℚ)
    (hw : (∑ i ∈ Finset.range n, w i) ≠ 0) :
    wvariance n (fun i => K * (z i - avgw n z w)) w = K ^ 2 * wvariance n z w := by
  unfold wvariance
  rw [avgw_center n z w K hw]
  simp only [sub_zero]
  rw [← mul_div_assoc]
  congr 1
  rw [Finset.mul_sum]
  apply Finset.sum_congr rfl
  intro i _
  ring

/-- Claim C10: with positive total weight, `rms_correlated_energy_spread`
equals `|K|` times the RMS bunch length, where `K` is the longitudinal
energy chirp: the weighted variance of `K*(z - meanZ)` factors exactly as
`K²` times the weighted variance of `z`, and the hypothesis `hs` states the
corresponding multiplicativity of the (abstract) square root at the two
evaluation points, which the real square root satisfies. -/
theorem rms_correlated_spread_factors (rsqrt : ℚ → ℚ) (n : ℕ)
    (z px py pz w : ℕ → ℚ) (hw : 0 < ∑ i ∈ Finset.range n, w i)
    (hs : rsqrt ((longitudinal_energy_chirp rsqrt n z px py pz w) ^ 2 *
            wvariance n z w) =
          |longitudinal_energy_chirp rsqrt n z px py pz w| *
            rsqrt (wvariance n z w)) :
    rms_correlated_energy_spread rsqrt n z px py pz w =
      |longitudinal_energy_chirp rsqrt n z px py pz w| * rms_length rsqrt n z w := by
  simp only [rms_correlated_energy_spread, rms_length, weighted_std]
  rw [wvariance_smul_center n z w _ (ne_of_gt hw), hs]

theorem rms_correlated_spread_factors_witness :
    (0 < ∑ i ∈ Finset.range 2, (fun _ => (1 : ℚ)) i) ∧
      rms_correlated_energy_spread ratSqrt 2 (fun i => (i : ℚ)) (fun _ => 0)
          (fun _ => 0) (fun _ => 0) (fun _ => 1) =
        |longitudinal_energy_chirp ratSqrt 2 (fun i => (i : ℚ)) (fun _ => 0)
            (fun _ => 0) (fun _ => 0) (fun _ => 1)| *
          rms_length ratSqrt 2 (fun i => (i : ℚ)) (fun _ => 1) := by
  have hw : 0 < ∑ i ∈ Finset.range 2, (fun _ => (1 : ℚ)) i := by
    simp [Finset.sum_range_succ]
  have h1 : ratSqrt 1 = 1 := by
    rw [show (1 : ℚ) = 1 ^ 2 by norm_num]
    exact ratSqrt_sq (by norm_num)
  have hK : longitudinal_energy_chirp ratSqrt 2 (fun i => (i : ℚ)) (fun _ => 0)
      (fun _ => 0) (fun _ => 0) (fun _ => 1) = 0 := by
    simp only [longitudinal_energy_chirp, energy_arr, avgw,
      polyfit_lin_slope_unw, wls_slope, wls_den, Finset.sum_range_succ,
      Finset.sum_range_zero]
    norm_num [h1]
  have h0 : ratSqrt 0 = 0 := by
    rw [show (0 : ℚ) = 0 ^ 2 by norm_num]
    exact ratSqrt_sq (by norm_num)
  refine ⟨hw, rms_correlated_spread_factors ratSqrt 2 _ _ _ _ _ hw ?_⟩
  rw [hK]
  norm_num [h0]

theorem ols_optimal (n : ℕ) (X Y : ℕ → ℚ) (hn : 0 < n)
    (hD : 0 < wls_den n X (fun _ => 1)) (a b : ℚ) :
    sse n X Y (polyfit_lin_slope_unw n X Y) (ols_intercept n X Y) ≤ sse n X Y a b ∧
      (a ≠ polyfit_lin_slope_unw n X Y →
        sse n X Y (polyfit_lin_slope_unw n X Y) (ols_intercept n X Y) < sse n X Y a b) := by
  set S1 := ∑ i ∈ Finset.range n, X i with hS1
  set S2 := ∑ i ∈ Finset.range n, X i ^ 2 with hS2
  set T0 := ∑ i ∈ Finset.range n, Y i with hT0
  set T1 := ∑ i ∈ Finset.range n, X i * Y i with hT1
  have hnQ : (0 : ℚ) < (n : ℚ) := by exact_mod_cast hn
  have hnne : (n : ℚ) ≠ 0 := ne_of_gt hnQ
  have hden : wls_den n X (fun _ => 1) = (n : ℚ) * S2 - S1 ^ 2 := by
    unfold wls_den
    simp [Finset.sum_const, Finset.card_range, ← hS1, ← hS2]
  have hDne : (n : ℚ) * S2 - S1 ^ 2 ≠ 0 := by rw [← hden]; exact ne_of_gt hD
  have hK : polyfit_lin_slope_unw n X Y =
      ((n : ℚ) * T1 - S1 * T0) / ((n : ℚ) * S2 - S1 ^ 2) := by
    unfold polyfit_lin_slope_unw wls_slope
    rw [hden]
    simp [Finset.sum_const, Finset.card_range, ← hS1, ← hT0, ← hT1]
  set K := polyfit_lin_slope_unw n X Y with hKdef
  set B := ols_intercept n X Y with hBdef
  have hB : B = (T0 - K * S1) / (n : ℚ) := by
    rw [hBdef]
    unfold ols_intercept
    rw [← hKdef, ← hT0, ← hS1]
  -- normal equations
  have hr0 : ∑ i ∈ Finset.range n, (Y i - (K * X i + B)) = 0 := by
    have h1 : ∀ i ∈ Finset.range n,
        Y i - (K * X i + B) = Y i - K * X i - B := fun i _ => by ring
    rw [Finset.sum_congr rfl h1, Finset.sum_sub_distrib, Finset.sum_sub_distrib,
      ← Finset.mul_sum, Finset.sum_const, Finset.card_range, nsmul_eq_mul]
    rw [← hT0, ← hS1, hB]
    field_simp
  have hr1 : ∑ i ∈ Finset.range n, X i * (Y i - (K * X i + B)) = 0 := by
    have h1 : ∀ i ∈ Finset.range n,
        X i * (Y i - (K * X i + B)) = X i * Y i - K * X i ^ 2 - B * X i :=
      fun i _ => by ring
    rw [Finset.sum_congr rfl h1, Finset.sum_sub_distrib, Finset.sum_sub_distrib,
      ← Finset.mul_sum, ← Finset.mul_sum, ← hT1, ← hS2, ← hS1, hB, hK]
    field_simp
    ring
  -- decomposition of the objective
  have hdec : sse n X Y a b = sse n X Y K B +
      ((K - a) ^ 2 * S2 + 2 * (K - a) * (B - b) * S1 + (B - b) ^ 2 * (n : ℚ)) := by
    have h1 : ∀ i ∈ Finset.range n,
        (Y i - (a * X i + b)) ^ 2 =
          (Y i - (K * X i + B)) ^ 2 + ((K - a) ^ 2 * X i ^ 2 +
            2 * (K - a) * (B - b) * X i + (B - b) ^ 2) +
            (2 * (K - a) * (X i * (Y i - (K * X i + B))) +
              2 * (B - b) * (Y i - (K * X i + B))) := fun i _ => by ring
    unfold sse
    rw [Finset.sum_congr rfl h1, Finset.sum_add_distrib, Finset.sum_add_distrib,
      Finset.sum_add_distrib, Finset.sum_add_distrib, Finset.sum_add_distrib,
      ← Finset.mul_sum, ← Finset.mul_sum, ← Finset.mul_sum, ← Finset.mul_sum,
      hr0, hr1, ← hS2, ← hS1, Finset.sum_const, Finset.card_range, nsmul_eq_mul]
    ring
  have hQform : (K - a) ^ 2 * S2 + 2 * (K - a) * (B - b) * S1 + (B - b) ^ 2 * (n : ℚ) =
      (((K - a) * S1 + (B - b) * (n : ℚ)) ^ 2 +
        (K - a) ^ 2 * ((n : ℚ) * S2 - S1 ^ 2)) / (n : ℚ) := by
    field_simp
    ring
  have hQnonneg : 0 ≤ (K - a) ^ 2 * S2 + 2 * (K - a) * (B - b) * S1 +
      (B - b) ^ 2 * (n : ℚ) := by
    rw [hQform]
    apply div_nonneg _ hnQ.le
    have h2 : 0 ≤ (K - a) ^ 2 * ((n : ℚ) * S2 - S1 ^ 2) := by
      apply mul_nonneg (sq_nonneg _)
      rw [← hden]; exact hD.le
    positivity
  constructor
  · rw [hdec]; linarith
  · intro hne
    rw [hdec]
    have hKa : K - a ≠ 0 := fun h => hne (by linarith [sub_eq_zero.mp h])
    have hQpos : 0 < (K - a) ^ 2 * S2 + 2 * (K - a) * (B - b) * S1 +
        (B - b) ^ 2 * (n : ℚ) := by
      rw [hQform]
      apply div_pos _ hnQ
      have h2 : 0 < (K - a) ^ 2 * ((n : ℚ) * S2 - S1 ^ 2) := by
        apply mul_pos (sq_pos_of_ne_zero hKa)
        rw [← hden]; exact hD
      positivity
    linarith

/-- Claim C7: `longitudinal_energy_chirp` returns the slope of an UNWEIGHTED
degree-1 least-squares fit of `(energy-meanEnergy)/meanEnergy` against
`z - meanZ`, where only the two centring means are `w`-weighted: together
with the matching intercept, the returned `K` minimises the plain
(weight-free) sum of squared residuals over all affine models, and strictly
so in the slope, so `K` is exactly the unweighted least-squares slope. -/
theorem chirp_is_unweighted_least_squares_slope (rsqrt : ℚ → ℚ) (n : ℕ)
    (z px py pz w : ℕ → ℚ) (hn : 0 < n)
    (hD : 0 < wls_den n (chirp_dz n z w) (fun _ => 1)) :
    ∀ a b : ℚ,
      sse n (chirp_dz n z w) (chirp_dE rsqrt n px py pz w)
          (longitudinal_energy_chirp rsqrt n z px py pz w)
          (ols_intercept n (chirp_dz n z w) (chirp_dE rsqrt n px py pz w)) ≤
        sse n (chirp_dz n z w) (chirp_dE rsqrt n px py pz w) a b ∧
      (a ≠ longitudinal_energy_chirp rsqrt n z px py pz w →
        sse n (chirp_dz n z w) (chirp_dE rsqrt n px py pz w)
            (longitudinal_energy_chirp rsqrt n z px py pz w)
            (ols_intercept n (chirp_dz n z w) (chirp_dE rsqrt n px py pz w)) <
          sse n (chirp_dz n z w) (chirp_dE rsqrt n px py pz w) a b) := by
  intro a b
  have he : longitudinal_energy_chirp rsqrt n z px py pz w =
      polyfit_lin_slope_unw n (chirp_dz n z w) (chirp_dE rsqrt n px py pz w) := rfl
  rw [he]
  exact ols_optimal n (chirp_dz n z w) (chirp_dE rsqrt n px py pz w) hn hD a b

theorem chirp_is_unweighted_least_squares_slope_witness :
    (0 < wls_den 2 (chirp_dz 2 (fun i => (i : ℚ)) (fun _ => 1)) (fun _ => 1)) ∧
      ∀ a b : ℚ,
        sse 2 (chirp_dz 2 (fun i => (i : ℚ)) (fun _ => 1))
            (chirp_dE ratSqrt 2 (fun _ => 0) (fun _ => 0) (fun _ => 0) (fun _ => 1))
            (longitudinal_energy_chirp ratSqrt 2 (fun i => (i : ℚ)) (fun _ => 0)
              (fun _ => 0) (fun _ => 0) (fun _ => 1))
            (ols_intercept 2 (chirp_dz 2 (fun i => (i : ℚ)) (fun _ => 1))
              (chirp_dE ratSqrt 2 (fun _ => 0) (fun _ => 0) (fun _ => 0) (fun _ => 1))) ≤
          sse 2 (chirp_dz 2 (fun i => (i : ℚ)) (fun _ => 1))
            (chirp_dE ratSqrt 2 (fun _ => 0) (fun _ => 0) (fun _ => 0) (fun _ => 1)) a b := by
  have hD : 0 < wls_den 2 (chirp_dz 2 (fun i => (i : ℚ)) (fun _ => 1)) (fun _ => 1) := by
    simp only [wls_den, chirp_dz, avgw, Finset.sum_range_succ, Finset.sum_range_zero]
    norm_num
  refine ⟨hD, fun a b => ?_⟩
  exact (chirp_is_unweighted_least_squares_slope ratSqrt 2 (fun i => (i : ℚ))
    (fun _ => 0) (fun _ => 0) (fun _ => 0) (fun _ => 1) (by norm_num) hD a b).1

theorem exists_unique_bin_u (u : ℚ) (ns : ℕ) (hns : 0 < ns) (h0 : 0 ≤ u)
    (h1 : u ≤ ns) :
    ∃! i : ℕ, i < ns ∧ (i : ℚ) ≤ u ∧ (u < i + 1 ∨ i + 1 = ns) := by
  by_cases hu : u < ns
  · have hQ : (((⌊u⌋).toNat : ℕ) : ℚ) = ((⌊u⌋ : ℤ) : ℚ) := by
      exact_mod_cast Int.toNat_of_nonneg (Int.floor_nonneg.mpr h0)
    refine ⟨(⌊u⌋).toNat, ⟨?_, ?_, Or.inl ?_⟩, ?_⟩
    · have hfl : (((⌊u⌋).toNat : ℕ) : ℚ) ≤ u := by
        rw [hQ]; exact Int.floor_le u
      have : (((⌊u⌋).toNat : ℕ) : ℚ) < (ns : ℚ) := lt_of_le_of_lt hfl hu
      exact_mod_cast this
    · rw [hQ]; exact Int.floor_le u
    · rw [hQ]; exact Int.lt_floor_add_one u
    · rintro j ⟨hj, hjle, hjlt⟩
      have hj1 : ((j : ℤ) : ℚ) ≤ u ∧ u < ((j : ℤ) : ℚ) + 1 := by
        constructor
        · exact_mod_cast hjle
        · rcases hjlt with h | h
          · exact_mod_cast h
          · have : ((j : ℚ) + 1) = ((j + 1 : ℕ) : ℚ) := by push_cast; ring
            push_cast
            rw [show ((j : ℚ) + 1) = ((j + 1 : ℕ) : ℚ) by push_cast; ring, h]
            exact hu
      have : ⌊u⌋ = (j : ℤ) := Int.floor_eq_iff.mpr hj1
      omega
  · have hu' : u = ns := le_antisymm h1 (le_of_not_lt hu)
    refine ⟨ns - 1, ⟨by omega, ?_, Or.inr (by omega)⟩, ?_⟩
    · rw [hu']
      have : ((ns - 1 : ℕ) : ℚ) ≤ ((ns : ℕ) : ℚ) := by exact_mod_cast Nat.sub_le ns 1
      exact this
    · rintro j ⟨hj, hjle, hjlt⟩
      rcases hjlt with h | h
      · exfalso
        rw [hu'] at h
        have : (ns : ℚ) < (j : ℚ) + 1 := h
        have hj' : ns < j + 1 := by exact_mod_cast this
        omega
      · omega

theorem exists_unique_slice_t (t : ℚ) (ns : ℕ) (h0 : 0 < t) (h1 : t ≤ ns) :
    ∃! i : ℕ, i < ns ∧ (i : ℚ) < t ∧ t ≤ i + 1 := by
  have hc1 : 0 < ⌈t⌉ := Int.ceil_pos.mpr h0
  have h2 : (((⌈t⌉ - 1).toNat : ℕ) : ℤ) = ⌈t⌉ - 1 := Int.toNat_of_nonneg (by omega)
  have hQ : (((⌈t⌉ - 1).toNat : ℕ) : ℚ) = ((⌈t⌉ : ℤ) : ℚ) - 1 := by
    exact_mod_cast congrArg (fun z : ℤ => (z : ℚ)) h2
  refine ⟨(⌈t⌉ - 1).toNat, ⟨?_, ?_, ?_⟩, ?_⟩
  · have hns : (⌈t⌉ : ℤ) ≤ ns := Int.ceil_le.mpr (by exact_mod_cast h1)
    omega
  · rw [hQ]
    have := Int.ceil_lt_add_one t
    linarith
  · rw [hQ]
    have := Int.le_ceil t
    linarith
  · rintro j ⟨hj, hjlt, hjle⟩
    have hup : ⌈t⌉ ≤ (j : ℤ) + 1 := Int.ceil_le.mpr (by exact_mod_cast hjle)
    have hlo : (j : ℤ) < ⌈t⌉ := by
      have : (j : ℚ) < (⌈t⌉ : ℚ) := lt_of_lt_of_le hjlt (Int.le_ceil t)
      exact_mod_cast this
    omega

theorem bin_edge_le_iff {mn mx : ℚ} (h : mn < mx) {ns : ℕ} (hns : 0 < ns)
    (i : ℕ) (v : ℚ) :
    bin_edge mn mx ns i ≤ v ↔ (i : ℚ) ≤ (v - mn) * ns / (mx - mn) := by
  have hd : (0 : ℚ) < mx - mn := by linarith
  have hn : (0 : ℚ) < (ns : ℚ) := by exact_mod_cast hns
  have key : bin_edge mn mx ns i ≤ v ↔ (i : ℚ) * (mx - mn) / ns ≤ v - mn := by
    unfold bin_edge
    constructor <;> intro <;> linarith
  rw [key, div_le_iff hn, le_div_iff hd]

theorem bin_edge_lt_iff {mn mx : ℚ} (h : mn < mx) {ns : ℕ} (hns : 0 < ns)
    (i : ℕ) (v : ℚ) :
    bin_edge mn mx ns i < v ↔ (i : ℚ) < (v - mn) * ns / (mx - mn) := by
  have hd : (0 : ℚ) < mx - mn := by linarith
  have hn : (0 : ℚ) < (ns : ℚ) := by exact_mod_cast hns
  have key : bin_edge mn mx ns i < v ↔ (i : ℚ) * (mx - mn) / ns < v - mn := by
    unfold bin_edge
    constructor <;> intro <;> linarith
  rw [key, div_lt_iff hn, lt_div_iff hd]

theorem lt_bin_edge_iff {mn mx : ℚ} (h : mn < mx) {ns : ℕ} (hns : 0 < ns)
    (i : ℕ) (v : ℚ) :
    v < bin_edge mn mx ns i ↔ (v - mn) * ns / (mx - mn) < (i : ℚ) := by
  rw [← not_le, ← not_le, bin_edge_le_iff h hns]

theorem le_bin_edge_iff {mn mx : ℚ} (h : mn < mx) {ns : ℕ} (hns : 0 < ns)
    (i : ℕ) (v : ℚ) :
    v ≤ bin_edge mn mx ns i ↔ (v - mn) * ns / (mx - mn) ≤ (i : ℚ) := by
  rw [← not_lt, ← not_lt, bin_edge_lt_iff h hns]

theorem exists_unique_bin {mn mx : ℚ} {ns : ℕ} (h : mn < mx) (hns : 0 < ns)
    {v : ℚ} (hv1 : mn ≤ v) (hv2 : v ≤ mx) :
    ∃! i : ℕ, i < ns ∧ in_bin mn mx ns i v := by
  have hd : (0 : ℚ) < mx - mn := by linarith
  have hn : (0 : ℚ) < (ns : ℚ) := by exact_mod_cast hns
  set u := (v - mn) * ns / (mx - mn) with hu
  have h0 : 0 ≤ u := by
    apply div_nonneg _ hd.le
    exact mul_nonneg (by linarith) hn.le
  have h1 : u ≤ ns := by
    rw [hu, div_le_iff hd]
    nlinarith
  have hcong : ∀ i : ℕ, (i < ns ∧ in_bin mn mx ns i v) ↔
      (i < ns ∧ ((i : ℚ) ≤ u ∧ (u < i + 1 ∨ i + 1 = ns))) := by
    intro i
    constructor
    · rintro ⟨hi, he, hr⟩
      refine ⟨hi, (bin_edge_le_iff h hns i v).mp he, ?_⟩
      rcases hr with hlt | ⟨hlast, _⟩
      · left
        have := (lt_bin_edge_iff h hns (i + 1) v).mp hlt
        push_cast at this ⊢
        linarith
      · right; exact hlast
    · rintro ⟨hi, hle, hr⟩
      refine ⟨hi, (bin_edge_le_iff h hns i v).mpr hle, ?_⟩
      rcases hr with hlt | hlast
      · left
        apply (lt_bin_edge_iff h hns (i + 1) v).mpr
        push_cast
        linarith
      · right
        refine ⟨hlast, ?_⟩
        have hlastedge : bin_edge mn mx ns ns = mx := by
          unfold bin_edge
          field_simp
        rw [hlast, hlastedge]
        exact hv2
  exact (existsUnique_congr hcong).mpr (exists_unique_bin_u u ns hns h0 h1)

theorem exists_unique_slice {mn mx : ℚ} {ns : ℕ} (h : mn < mx) (hns : 0 < ns)
    {v : ℚ} (hv1 : mn < v) (hv2 : v ≤ mx) :
    ∃! i : ℕ, i < ns ∧ in_slice (fun j => bin_edge mn mx ns j) i v := by
  have hd : (0 : ℚ) < mx - mn := by linarith
  have hn : (0 : ℚ) < (ns : ℚ) := by exact_mod_cast hns
  set u := (v - mn) * ns / (mx - mn) with hu
  have h0 : 0 < u := by
    apply div_pos _ hd
    exact mul_pos (by linarith) hn
  have h1 : u ≤ ns := by
    rw [hu, div_le_iff hd]
    nlinarith
  have hcong : ∀ i : ℕ, (i < ns ∧ in_slice (fun j => bin_edge mn mx ns j) i v) ↔
      (i < ns ∧ ((i : ℚ) < u ∧ u ≤ i + 1)) := by
    intro i
    unfold in_slice
    constructor
    · rintro ⟨hi, he, hr⟩
      refine ⟨hi, (bin_edge_lt_iff h hns i v).mp he, ?_⟩
      have := (le_bin_edge_iff h hns (i + 1) v).mp hr
      push_cast at this ⊢
      linarith
    · rintro ⟨hi, hlt, hle⟩
      refine ⟨hi, (bin_edge_lt_iff h hns i v).mpr hlt, ?_⟩
      apply (le_bin_edge_iff h hns (i + 1) v).mpr
      push_cast
      linarith
  exact (existsUnique_congr hcong).mpr (exists_unique_slice_t u ns h0 h1)

theorem sum_ite_unique (ns : ℕ) (p : ℕ → Prop) [DecidablePred p] (c : ℚ)
    (h : ∃! i : ℕ, i < ns ∧ p i) :
    ∑ i ∈ Finset.range ns, (if p i then c else 0) = c := by
  obtain ⟨i0, ⟨hi0, hp0⟩, huniq⟩ := h
  rw [Finset.sum_eq_single i0]
  · rw [if_pos hp0]
  · intro j hj hne
    rw [if_neg]
    intro hpj
    exact hne (huniq j ⟨Finset.mem_range.mp hj, hpj⟩)
  · intro hnotin
    exact absurd (Finset.mem_range.mpr hi0) hnotin

/-- Claim C3: for every nonempty ensemble with valid slicing (at least one
slice and strictly positive bunch length, the degenerate case being a
division-by-zero domain error), the per-bin currents of `current_profile`
multiplied by the slice duration `adjustedSliceLength / c` sum to the total
charge `sum(q)` exactly. -/
theorem current_profile_charge_conservation (n : ℕ) (z q : ℕ → ℚ)
    (n_slices : ℕ) (len_slice : Option ℚ) (hn : 0 < n)
    (hns : 0 < cp_n_slices n z n_slices len_slice)
    (hlt : amin n z < amax n z) :
    ∑ i ∈ Finset.range (cp_n_slices n z n_slices len_slice),
        (current_profile n z q n_slices len_slice).1 i *
          ((amax n z - amin n z) / (cp_n_slices n z n_slices len_slice : ℚ) / c_light) =
      ∑ j ∈ Finset.range n, q j := by
  set ns := cp_n_slices n z n_slices len_slice with hnsdef
  have hnQ : (0 : ℚ) < (ns : ℚ) := by exact_mod_cast hns
  have hsl : (amax n z - amin n z) / (ns : ℚ) / c_light ≠ 0 := by
    have hc : (0 : ℚ) < c_light := by unfold c_light; norm_num
    have : 0 < (amax n z - amin n z) / (ns : ℚ) / c_light := by
      apply div_pos (div_pos (by linarith) hnQ) hc
    exact ne_of_gt this
  have hterm : ∀ i ∈ Finset.range ns,
      (current_profile n z q n_slices len_slice).1 i *
          ((amax n z - amin n z) / (ns : ℚ) / c_light) =
        charge_hist n z q ns i := by
    intro i _
    show charge_hist n z q ns i / ((amax n z - amin n z) / (ns : ℚ) / c_light) *
        ((amax n z - amin n z) / (ns : ℚ) / c_light) = charge_hist n z q ns i
    exact div_mul_cancel₀ _ hsl
  rw [Finset.sum_congr rfl hterm]
  unfold charge_hist
  have hsw : ∀ i ∈ Finset.range ns,
      (∑ j ∈ (Finset.range n).filter
          (fun j => in_bin (amin n z) (amax n z) ns i (z j)), q j) =
        ∑ j ∈ Finset.range n,
          (if in_bin (amin n z) (amax n z) ns i (z j) then q j else 0) :=
    fun i _ => Finset.sum_filter _ _
  rw [Finset.sum_congr rfl hsw, Finset.sum_comm]
  apply Finset.sum_congr rfl
  intro j hj
  exact sum_ite_unique ns (fun i => in_bin (amin n z) (amax n z) ns i (z j)) (q j)
    (exists_unique_bin hlt hns (amin_le z (Finset.mem_range.mp hj))
      (le_amax z (Finset.mem_range.mp hj)))

theorem current_profile_charge_conservation_witness :
    ((0 : ℕ) < 10 ∧ 0 < cp_n_slices 10 (fun i => (i : ℚ)) 2 none ∧
        amin 10 (fun i => (i : ℚ)) < amax 10 (fun i => (i : ℚ))) ∧
      ∑ i ∈ Finset.range (cp_n_slices 10 (fun i => (i : ℚ)) 2 none),
          (current_profile 10 (fun i => (i : ℚ)) (fun _ => 1) 2 none).1 i *
            ((amax 10 (fun i => (i : ℚ)) - amin 10 (fun i => (i : ℚ))) /
              (cp_n_slices 10 (fun i => (i : ℚ)) 2 none : ℚ) / c_light) =
        ∑ j ∈ Finset.range 10, (fun _ => (1 : ℚ)) j := by
  have h1 : cp_n_slices 10 (fun i => (i : ℚ)) 2 none = 2 := rfl
  have h2 : amin 10 (fun i => (i : ℚ)) = 0 := by
    simp [amin]
  have h3 : amax 10 (fun i => (i : ℚ)) = 9 := by
    show max (max (max (max (max (max (max (max (max
      ((0 : ℕ) : ℚ) 1) 2) 3) 4) 5) 6) 7) 8) 9 = 9
    norm_num
  refine ⟨⟨by norm_num, by rw [h1]; norm_num, by rw [h2, h3]; norm_num⟩, ?_⟩
  exact current_profile_charge_conservation 10 (fun i => (i : ℚ)) (fun _ => 1) 2
    none (by norm_num) (by rw [h1]; norm_num) (by rw [h2, h3]; norm_num)

theorem list_filter_map_sum (n : ℕ) (p : ℕ → Bool) (w : ℕ → ℚ) :
    (((List.range n).filter p).map w).sum =
      ∑ j ∈ (Finset.range n).filter (fun j => p j = true), w j := by
  induction n with
  | zero => simp
  | succ n ih =>
    rw [List.range_succ, List.filter_append, List.map_append, List.sum_append,
      Finset.range_succ, Finset.filter_insert]
    by_cases hp : p n = true
    · rw [if_pos hp, Finset.sum_insert (by simp)]
      simp only [List.filter_cons, hp, if_pos, List.filter_nil, List.map_cons,
        List.map_nil, List.sum_cons, List.sum_nil, ih]
      ring
    · rw [if_neg hp]
      simp [hp, ih]

theorem mn_le_bin_edge {mn mx : ℚ} (hle : mn ≤ mx) (ns i : ℕ) :
    mn ≤ bin_edge mn mx ns i := by
  unfold bin_edge
  have h : 0 ≤ (i : ℚ) * (mx - mn) / (ns : ℚ) := by
    apply div_nonneg _ (by positivity)
    exact mul_nonneg (by positivity) (by linarith)
  linarith

theorem slice_weight_sum (n ns : ℕ) (z w : ℕ → ℚ) (hn : 0 < n) (hns : 0 < ns) :
    ∑ i ∈ Finset.range ns,
        (let idx := slice_idxs n (fun j => bin_edge (amin n z) (amax n z) ns j) z i
          if idx.isEmpty then 0 else (idx.map w).sum) =
      ∑ j ∈ (Finset.range n).filter (fun j => amin n z < z j), w j := by
  set mn := amin n z with hmn
  set mx := amax n z with hmx
  have hterm : ∀ i ∈ Finset.range ns,
      (let idx := slice_idxs n (fun j => bin_edge mn mx ns j) z i
        if idx.isEmpty then 0 else (idx.map w).sum) =
        ∑ j ∈ Finset.range n,
          (if in_slice (fun j => bin_edge mn mx ns j) i (z j) then w j else 0) := by
    intro i _
    show (if (slice_idxs n (fun j => bin_edge mn mx ns j) z i).isEmpty then 0
        else ((slice_idxs n (fun j => bin_edge mn mx ns j) z i).map w).sum) = _
    have hcollapse : ∀ l : List ℕ,
        (if l.isEmpty then (0 : ℚ) else (l.map w).sum) = (l.map w).sum := by
      intro l
      cases l <;> simp
    rw [hcollapse]
    unfold slice_idxs
    rw [list_filter_map_sum]
    rw [Finset.sum_filter]
    apply Finset.sum_congr rfl
    intro j _
    by_cases hj : in_slice (fun j => bin_edge mn mx ns j) i (z j)
    · simp [hj]
    · simp [hj]
  rw [Finset.sum_congr rfl hterm, Finset.sum_comm, Finset.sum_filter]
  apply Finset.sum_congr rfl
  intro j hj
  by_cases hz : mn < z j
  · rw [if_pos hz]
    have hlt : mn < mx := lt_of_lt_of_le hz (le_amax z (Finset.mem_range.mp hj))
    exact sum_ite_unique ns _ (w j)
      (exists_unique_slice hlt hns hz (le_amax z (Finset.mem_range.mp hj)))
  · rw [if_neg hz]
    apply Finset.sum_eq_zero
    intro i _
    rw [if_neg]
    rintro ⟨hlo, _⟩
    have hje : z j = mn := le_antisymm (le_of_not_lt hz) (amin_le z (Finset.mem_range.mp hj))
    have hge : mn ≤ bin_edge mn mx ns i := mn_le_bin_edge (amin_le_amax z hn) ns i
    rw [hje] at hlo
    exact absurd hlo (not_lt_of_le hge)

/-- Claim C6: for every nonempty ensemble and every positive slice count,
both per-slice functions assign a particle lying exactly at
`edges[0] = min(z)` to no slice, and the per-slice weights they return sum
to the total weight of the particles with `z > min(z)`. -/
theorem slice_functions_weight_partition (rsqrt : ℚ → ℚ) (n ns : ℕ)
    (z x px py pz w : ℕ → ℚ) (disp_corrected : Bool) (hn : 0 < n) (hns : 0 < ns) :
    (∀ j < n, z j = amin n z → ∀ i < ns,
        ¬ in_slice (create_beam_slices n z ns none).1 i (z j)) ∧
      (∑ i ∈ Finset.range ns,
          (relative_rms_slice_energy_spread rsqrt n z px py pz w ns none).2.1 i =
        ∑ j ∈ (Finset.range n).filter (fun j => amin n z < z j), w j) ∧
      (∑ i ∈ Finset.range ns,
          (normalized_transverse_rms_slice_emittance rsqrt n z x px py pz w
            disp_corrected ns none).2.1 i =
        ∑ j ∈ (Finset.range n).filter (fun j => amin n z < z j), w j) := by
  have hedge : (create_beam_slices n z ns none).1 =
      fun i => bin_edge (amin n z) (amax n z) ns i := rfl
  refine ⟨?_, ?_, ?_⟩
  · intro j _ hzj i _ hmem
    rw [hedge] at hmem
    obtain ⟨hlo, _⟩ := hmem
    rw [hzj] at hlo
    exact absurd hlo (not_lt_of_le (mn_le_bin_edge (amin_le_amax z hn) ns i))
  · have hproj : ∀ i, (relative_rms_slice_energy_spread rsqrt n z px py pz w
        ns none).2.1 i =
        (let idx := slice_idxs n (fun j => bin_edge (amin n z) (amax n z) ns j) z i
          if idx.isEmpty then 0 else (idx.map w).sum) := fun i => rfl
    rw [Finset.sum_congr rfl (fun i _ => hproj i)]
    exact slice_weight_sum n ns z w hn hns
  · have hproj : ∀ i, (normalized_transverse_rms_slice_emittance rsqrt n z x px
        py pz w disp_corrected ns none).2.1 i =
        (let idx := slice_idxs n (fun j => bin_edge (amin n z) (amax n z) ns j) z i
          if idx.isEmpty then 0 else (idx.map w).sum) := fun i => rfl
    rw [Finset.sum_congr rfl (fun i _ => hproj i)]
    exact slice_weight_sum n ns z w hn hns

theorem slice_functions_weight_partition_witness :
    ((0 : ℕ) < 3 ∧ (0 : ℕ) < 2) ∧
      ((∀ j : ℕ, j < 3 → (j : ℚ) = amin 3 (fun i => (i : ℚ)) → ∀ i : ℕ, i < 2 →
          ¬ in_slice (create_beam_slices 3 (fun i => (i : ℚ)) 2 none).1 i (j : ℚ)) ∧
        (∑ i ∈ Finset.range 2,
            (relative_rms_slice_energy_spread ratSqrt 3 (fun i => (i : ℚ))
              (fun _ => 0) (fun _ => 0) (fun _ => 1) (fun _ => 1) 2 none).2.1 i =
          ∑ j ∈ (Finset.range 3).filter
              (fun j : ℕ => amin 3 (fun i => (i : ℚ)) < (j : ℚ)), (1 : ℚ)) ∧
        (∑ i ∈ Finset.range 2,
            (normalized_transverse_rms_slice_emittance ratSqrt 3 (fun i => (i : ℚ))
              (fun _ => 0) (fun _ => 0) (fun _ => 0) (fun _ => 1) (fun _ => 1)
              false 2 none).2.1 i =
          ∑ j ∈ (Finset.range 3).filter
              (fun j : ℕ => amin 3 (fun i => (i : ℚ)) < (j : ℚ)), (1 : ℚ))) := by
  exact ⟨⟨by norm_num, by norm_num⟩,
    slice_functions_weight_partition ratSqrt 3 2 (fun i => (i : ℚ)) (fun _ => 0)
      (fun _ => 0) (fun _ => 0) (fun _ => 1) (fun _ => 1) false (by norm_num)
      (by norm_num)⟩

theorem amin_ten : amin 10 (fun j => (j : ℚ)) = 0 := by
  show min (min (min (min (min (min (min (min (min
    ((0 : ℕ) : ℚ) 1) 2) 3) 4) 5) 6) 7) 8) 9 = 0
  norm_num

theorem amax_ten : amax 10 (fun j => (j : ℚ)) = 9 := by
  show max (max (max (max (max (max (max (max (max
    ((0 : ℕ) : ℚ) 1) 2) 3) 4) 5) 6) 7) 8) 9 = 9
  norm_num

theorem charge_hist_ten_bin0 :
    charge_hist 10 (fun j => (j : ℚ)) (fun _ => 1 / 10 ^ 12) 2 0 = 5 / 10 ^ 12 := by
  unfold charge_hist
  rw [amin_ten, amax_ten, Finset.sum_filter]
  simp only [Finset.sum_range_succ, Finset.sum_range_zero, in_bin, bin_edge]
  norm_num

theorem charge_hist_ten_bin1 :
    charge_hist 10 (fun j => (j : ℚ)) (fun _ => 1 / 10 ^ 12) 2 1 = 5 / 10 ^ 12 := by
  unfold charge_hist
  rw [amin_ten, amax_ten, Finset.sum_filter]
  simp only [Finset.sum_range_succ, Finset.sum_range_zero, in_bin, bin_edge]
  norm_num

/-- Counterexample to claim C2: on `z = [0..9]`, `q = [1e-12]*10`,
`nSlices = 2`, the particle at `z = 0` (the global minimum) IS counted in
the first histogram bin (`np.histogram`'s first bin includes its left edge),
so the first bin receives 5e-12 C — not the claimed 4e-12 C of four
particles — and the total charge counted is 10e-12 C, not 9e-12 C. -/
theorem current_profile_example_counterexample :
    in_bin (amin 10 (fun j => (j : ℚ))) (amax 10 (fun j => (j : ℚ))) 2 0
        ((fun j => (j : ℚ)) 0) ∧
      ¬ (charge_hist 10 (fun j => (j : ℚ)) (fun _ => 1 / 10 ^ 12) 2 0 = 4 / 10 ^ 12 ∧
          charge_hist 10 (fun j => (j : ℚ)) (fun _ => 1 / 10 ^ 12) 2 0 +
            charge_hist 10 (fun j => (j : ℚ)) (fun _ => 1 / 10 ^ 12) 2 1 =
              9 / 10 ^ 12) := by
  constructor
  · rw [amin_ten, amax_ten]
    unfold in_bin bin_edge
    norm_num
  · rw [charge_hist_ten_bin0, charge_hist_ten_bin1]
    intro h
    exact absurd h.1 (by norm_num)

/-- Amended claim C2: for `z = [0..9]`, `q = [1e-12]*10`, `nSlices = 2`,
`current_profile` produces edges `[0, 4.5, 9]`; the first bin receives the
five particles with `z` in `0..4` — including the particle at the global
minimum `z = 0`, since `np.histogram`'s first bin is closed on the left —
the second bin receives the five particles with `z` in `5..9`, and the total
charge counted over both bins (current times slice duration) is 10e-12 C. -/
theorem current_profile_example_amended :
    (current_profile 10 (fun j => (j : ℚ)) (fun _ => 1 / 10 ^ 12) 2 none).2 0 = 0 ∧
      (current_profile 10 (fun j => (j : ℚ)) (fun _ => 1 / 10 ^ 12) 2 none).2 1 = 9 / 2 ∧
      (current_profile 10 (fun j => (j : ℚ)) (fun _ => 1 / 10 ^ 12) 2 none).2 2 = 9 ∧
      (∀ j : ℕ, j < 10 →
        (in_bin (amin 10 (fun j => (j : ℚ))) (amax 10 (fun j => (j : ℚ))) 2 0
            ((j : ℚ)) ↔ j ≤ 4)) ∧
      (∀ j : ℕ, j < 10 →
        (in_bin (amin 10 (fun j => (j : ℚ))) (amax 10 (fun j => (j : ℚ))) 2 1
            ((j : ℚ)) ↔ 5 ≤ j)) ∧
      charge_hist 10 (fun j => (j : ℚ)) (fun _ => 1 / 10 ^ 12) 2 0 = 5 / 10 ^ 12 ∧
      charge_hist 10 (fun j => (j : ℚ)) (fun _ => 1 / 10 ^ 12) 2 1 = 5 / 10 ^ 12 ∧
      (current_profile 10 (fun j => (j : ℚ)) (fun _ => 1 / 10 ^ 12) 2 none).1 0 *
          ((9 / 2) / c_light) +
        (current_profile 10 (fun j => (j : ℚ)) (fun _ => 1 / 10 ^ 12) 2 none).1 1 *
          ((9 / 2) / c_light) = 10 / 10 ^ 12 := by
  have hc : c_light = 299792458 := rfl
  have hedge : ∀ i : ℕ, (current_profile 10 (fun j => (j : ℚ))
      (fun _ => 1 / 10 ^ 12) 2 none).2 i =
      bin_edge (amin 10 (fun j => (j : ℚ))) (amax 10 (fun j => (j : ℚ))) 2 i :=
    fun i => rfl
  have hcur : ∀ i : ℕ, (current_profile 10 (fun j => (j : ℚ))
      (fun _ => 1 / 10 ^ 12) 2 none).1 i =
      charge_hist 10 (fun j => (j : ℚ)) (fun _ => 1 / 10 ^ 12) 2 i /
        ((amax 10 (fun j => (j : ℚ)) - amin 10 (fun j => (j : ℚ))) / (2 : ℚ) /
          c_light) := fun i => rfl
  refine ⟨?_, ?_, ?_, ?_, ?_, charge_hist_ten_bin0, charge_hist_ten_bin1, ?_⟩
  · rw [hedge 0, amin_ten, amax_ten]; unfold bin_edge; norm_num
  · rw [hedge 1, amin_ten, amax_ten]; unfold bin_edge; norm_num
  · rw [hedge 2, amin_ten, amax_ten]; unfold bin_edge; norm_num
  · intro j hj
    rw [amin_ten, amax_ten]
    unfold in_bin bin_edge
    interval_cases j <;> norm_num
  · intro j hj
    rw [amin_ten, amax_ten]
    unfold in_bin bin_edge
    interval_cases j <;> norm_num
  · rw [hcur 0, hcur 1, amin_ten, amax_ten, charge_hist_ten_bin0,
      charge_hist_ten_bin1, hc]
    norm_num

/-- Claim C9: after a call to `twiss_parameters` the caller's `x` array has
been mutated in place — shifted by its weighted mean, plus the fitted
dispersion term when `disp_corrected` is set — and in the phase-space branch
the caller's `px` array has likewise been shifted by its weighted mean,
while in the trace-space branch `px` is untouched (the slope array
`xp = px/pz` is a fresh array); `py`, `pz` and `w` are never modified. -/
theorem twiss_parameters_mutation (rsqrt : ℚ → ℚ) (n : ℕ) (x px pz py w : ℕ → ℚ)
    (emitt : Emitt) (disp_corrected : Bool) :
    (twiss_parameters rsqrt n x px pz py w emitt disp_corrected).pyf = py ∧
      (twiss_parameters rsqrt n x px pz py w emitt disp_corrected).pzf = pz ∧
      (twiss_parameters rsqrt n x px pz py w emitt disp_corrected).wf = w ∧
      (emitt = Emitt.tr →
        (twiss_parameters rsqrt n x px pz py w emitt disp_corrected).pxf = px) ∧
      (emitt = Emitt.ph → ∀ i,
        (twiss_parameters rsqrt n x px pz py w emitt disp_corrected).pxf i =
          px i - avgw n px w) ∧
      (disp_corrected = false → ∀ i,
        (twiss_parameters rsqrt n x px pz py w emitt disp_corrected).xf i =
          x i - avgw n x w) ∧
      (disp_corrected = true → ∀ i,
        (twiss_parameters rsqrt n x px pz py w emitt disp_corrected).xf i =
          x i - avgw n x w -
            slope_of_correlation n (fun j => x j - avgw n x w)
                (dgamma_arr rsqrt n px py pz w) w *
              dgamma_arr rsqrt n px py pz w i) := by
  cases emitt <;> cases disp_corrected
  · exact ⟨rfl, rfl, rfl, fun _ => rfl, fun h => Emitt.noConfusion h,
      fun _ i => rfl, fun h => Bool.noConfusion h⟩
  · exact ⟨rfl, rfl, rfl, fun _ => rfl, fun h => Emitt.noConfusion h,
      fun h => Bool.noConfusion h, fun _ i => rfl⟩
  · exact ⟨rfl, rfl, rfl, fun h => Emitt.noConfusion h, fun _ i => rfl,
      fun _ i => rfl, fun h => Bool.noConfusion h⟩
  · exact ⟨rfl, rfl, rfl, fun h => Emitt.noConfusion h, fun _ i => rfl,
      fun h => Bool.noConfusion h, fun _ i => rfl⟩

theorem gaC1 (rsqrt : ℚ → ℚ) (hsq : ∀ a : ℚ, 0 ≤ a → rsqrt (a ^ 2) = a) :
    gamma_average rsqrt 4 pxC1 pyC1 pzC1 wC1 = 3 := by
  have hg0 : gamma_arr rsqrt pxC1 pyC1 pzC1 0 = 3 / 2 := by
    show rsqrt (pxC1 0 ^ 2 + pyC1 0 ^ 2 + pzC1 0 ^ 2) = 3 / 2
    rw [show pxC1 0 ^ 2 + pyC1 0 ^ 2 + pzC1 0 ^ 2 = (3 / 2) ^ 2 by
      rw [show pxC1 0 = 1 from rfl, show pyC1 0 = 1 / 2 from rfl,
        show pzC1 0 = 1 from rfl]; norm_num]
    exact hsq _ (by norm_num)
  have hg1 : gamma_arr rsqrt pxC1 pyC1 pzC1 1 = 3 := by
    show rsqrt (pxC1 1 ^ 2 + pyC1 1 ^ 2 + pzC1 1 ^ 2) = 3
    rw [show pxC1 1 ^ 2 + pyC1 1 ^ 2 + pzC1 1 ^ 2 = (3 : ℚ) ^ 2 by
      rw [show pxC1 1 = 1 from rfl, show pyC1 1 = 2 from rfl,
        show pzC1 1 = 2 from rfl]; norm_num]
    exact hsq _ (by norm_num)
  have hg2 : gamma_arr rsqrt pxC1 pyC1 pzC1 2 = 9 / 2 := by
    show rsqrt (pxC1 2 ^ 2 + pyC1 2 ^ 2 + pzC1 2 ^ 2) = 9 / 2
    rw [show pxC1 2 ^ 2 + pyC1 2 ^ 2 + pzC1 2 ^ 2 = (9 / 2) ^ 2 by
      rw [show pxC1 2 = 2 from rfl, show pyC1 2 = 7 / 2 from rfl,
        show pzC1 2 = 2 from rfl]; norm_num]
    exact hsq _ (by norm_num)
  have hg3 : gamma_arr rsqrt pxC1 pyC1 pzC1 3 = 3 := by
    show rsqrt (pxC1 3 ^ 2 + pyC1 3 ^ 2 + pzC1 3 ^ 2) = 3
    rw [show pxC1 3 ^ 2 + pyC1 3 ^ 2 + pzC1 3 ^ 2 = (3 : ℚ) ^ 2 by
      rw [show pxC1 3 = 2 from rfl, show pyC1 3 = 2 from rfl,
        show pzC1 3 = 1 from rfl]; norm_num]
    exact hsq _ (by norm_num)
  unfold gamma_average avgw
  simp only [Finset.sum_range_succ, Finset.sum_range_zero]
  rw [hg0, hg1, hg2, hg3, show wC1 0 = 1 from rfl, show wC1 1 = 1 from rfl,
    show wC1 2 = 1 from rfl, show wC1 3 = 2 from rfl]
  norm_num

theorem dgC1 (rsqrt : ℚ → ℚ) (hsq : ∀ a : ℚ, 0 ≤ a → rsqrt (a ^ 2) = a) :
    dgamma_arr rsqrt 4 pxC1 pyC1 pzC1 wC1 0 = -(1 / 2) ∧
    dgamma_arr rsqrt 4 pxC1 pyC1 pzC1 wC1 1 = 0 ∧
    dgamma_arr rsqrt 4 pxC1 pyC1 pzC1 wC1 2 = 1 / 2 ∧
    dgamma_arr rsqrt 4 pxC1 pyC1 pzC1 wC1 3 = 0 := by
  have hg0 : gamma_arr rsqrt pxC1 pyC1 pzC1 0 = 3 / 2 := by
    show rsqrt (pxC1 0 ^ 2 + pyC1 0 ^ 2 + pzC1 0 ^ 2) = 3 / 2
    rw [show pxC1 0 ^ 2 + pyC1 0 ^ 2 + pzC1 0 ^ 2 = (3 / 2) ^ 2 by
      rw [show pxC1 0 = 1 from rfl, show pyC1 0 = 1 / 2 from rfl,
        show pzC1 0 = 1 from rfl]; norm_num]
    exact hsq _ (by norm_num)
  have hg1 : gamma_arr rsqrt pxC1 pyC1 pzC1 1 = 3 := by
    show rsqrt (pxC1 1 ^ 2 + pyC1 1 ^ 2 + pzC1 1 ^ 2) = 3
    rw [show pxC1 1 ^ 2 + pyC1 1 ^ 2 + pzC1 1 ^ 2 = (3 : ℚ) ^ 2 by
      rw [show pxC1 1 = 1 from rfl, show pyC1 1 = 2 from rfl,
        show pzC1 1 = 2 from rfl]; norm_num]
    exact hsq _ (by norm_num)
  have hg2 : gamma_arr rsqrt pxC1 pyC1 pzC1 2 = 9 / 2 := by
    show rsqrt (pxC1 2 ^ 2 + pyC1 2 ^ 2 + pzC1 2 ^ 2) = 9 / 2
    rw [show pxC1 2 ^ 2 + pyC1 2 ^ 2 + pzC1 2 ^ 2 = (9 / 2) ^ 2 by
      rw [show pxC1 2 = 2 from rfl, show pyC1 2 = 7 / 2 from rfl,
        show pzC1 2 = 2 from rfl]; norm_num]
    exact hsq _ (by norm_num)
  have hg3 : gamma_arr rsqrt pxC1 pyC1 pzC1 3 = 3 := by
    show rsqrt (pxC1 3 ^ 2 + pyC1 3 ^ 2 + pzC1 3 ^ 2) = 3
    rw [show pxC1 3 ^ 2 + pyC1 3 ^ 2 + pzC1 3 ^ 2 = (3 : ℚ) ^ 2 by
      rw [show pxC1 3 = 2 from rfl, show pyC1 3 = 2 from rfl,
        show pzC1 3 = 1 from rfl]; norm_num]
    exact hsq _ (by norm_num)
  have hga := gaC1 rsqrt hsq
  refine ⟨?_, ?_, ?_, ?_⟩ <;>
    · unfold dgamma_arr
      rw [hga]
      first
        | (rw [hg0]; norm_num)
        | (rw [hg1]; norm_num)
        | (rw [hg2]; norm_num)
        | (rw [hg3]; norm_num)

theorem slope1C1 (rsqrt : ℚ → ℚ) (hsq : ∀ a : ℚ, 0 ≤ a → rsqrt (a ^ 2) = a) :
    polyfit_lin_slope 4 (dgamma_arr rsqrt 4 pxC1 pyC1 pzC1 wC1) xC1 wC1 = 0 := by
  obtain ⟨hd0, hd1, hd2, hd3⟩ := dgC1 rsqrt hsq
  unfold polyfit_lin_slope wls_slope
  simp only [Finset.sum_range_succ, Finset.sum_range_zero]
  rw [hd0, hd1, hd2, hd3, show wC1 0 = 1 from rfl, show wC1 1 = 1 from rfl,
    show wC1 2 = 1 from rfl, show wC1 3 = 2 from rfl, show xC1 0 = -2 from rfl,
    show xC1 1 = 2 from rfl, show xC1 2 = -2 from rfl, show xC1 3 = 2 from rfl]
  norm_num

theorem slope2C1 (rsqrt : ℚ → ℚ) (hsq : ∀ a : ℚ, 0 ≤ a → rsqrt (a ^ 2) = a) :
    polyfit_lin_slope 4 (dgamma_arr rsqrt 4 pxC1 pyC1 pzC1 wC1)
      (fun i => pxC1 i / pzC1 i) wC1 = 0 := by
  obtain ⟨hd0, hd1, hd2, hd3⟩ := dgC1 rsqrt hsq
  unfold polyfit_lin_slope wls_slope
  simp only [Finset.sum_range_succ, Finset.sum_range_zero]
  rw [hd0, hd1, hd2, hd3, show wC1 0 = 1 from rfl, show wC1 1 = 1 from rfl,
    show wC1 2 = 1 from rfl, show wC1 3 = 2 from rfl,
    show pxC1 0 = 1 from rfl, show pxC1 1 = 1 from rfl,
    show pxC1 2 = 2 from rfl, show pxC1 3 = 2 from rfl,
    show pzC1 0 = 1 from rfl, show pzC1 1 = 2 from rfl,
    show pzC1 2 = 2 from rfl, show pzC1 3 = 1 from rfl]
  norm_num

theorem hcodeC1 (rsqrt : ℚ → ℚ) (hsq : ∀ a : ℚ, 0 ≤ a → rsqrt (a ^ 2) = a) :
    twiss_parameters_corrected rsqrt 4 xC1 pxC1 pyC1 pzC1 wC1 =
      twiss_parameters rsqrt 4 xC1 pxC1 pzC1 wC1 (fun _ => 1) Emitt.tr false := by
  show twiss_parameters rsqrt 4
    (fun i => xC1 i -
      polyfit_lin_slope 4 (dgamma_arr rsqrt 4 pxC1 pyC1 pzC1 wC1) xC1 wC1 *
        dgamma_arr rsqrt 4 pxC1 pyC1 pzC1 wC1 i)
    (fun i => ((pxC1 i / pzC1 i) -
      polyfit_lin_slope 4 (dgamma_arr rsqrt 4 pxC1 pyC1 pzC1 wC1)
          (fun i => pxC1 i / pzC1 i) wC1 *
        dgamma_arr rsqrt 4 pxC1 pyC1 pzC1 wC1 i) * pzC1 i)
    pzC1 wC1 (fun _ => 1) Emitt.tr false = _
  rw [slope1C1 rsqrt hsq, slope2C1 rsqrt hsq]
  have hx : (fun i => xC1 i - 0 * dgamma_arr rsqrt 4 pxC1 pyC1 pzC1 wC1 i) = xC1 := by
    funext i; ring
  have hpx : (fun i => ((pxC1 i / pzC1 i) -
      0 * dgamma_arr rsqrt 4 pxC1 pyC1 pzC1 wC1 i) * pzC1 i) = pxC1 := by
    funext i
    by_cases hi : i < 4
    · interval_cases i <;>
        · rw [show (0:ℚ) * dgamma_arr rsqrt 4 pxC1 pyC1 pzC1 wC1 _ = 0 by ring]
          norm_num [pxC1, pzC1]
    · have h4 : 4 ≤ i := by omega
      simp only [pxC1, pzC1]
      rw [List.getD_eq_default _ _ (by simpa using h4),
        List.getD_eq_default _ _ (by simpa using h4)]
      ring
  rw [hx, hpx]

theorem hcov1C1 : cov_det 4 xC1 (fun i => pxC1 i / pzC1 i) (fun _ => |(1 : ℚ)|) = 2 := by
  simp only [cov_det, Finset.sum_range_succ, Finset.sum_range_zero]
  rw [show xC1 0 = -2 from rfl, show xC1 1 = 2 from rfl, show xC1 2 = -2 from rfl,
    show xC1 3 = 2 from rfl, show pxC1 0 = 1 from rfl, show pxC1 1 = 1 from rfl,
    show pxC1 2 = 2 from rfl, show pxC1 3 = 2 from rfl, show pzC1 0 = 1 from rfl,
    show pzC1 1 = 2 from rfl, show pzC1 2 = 2 from rfl, show pzC1 3 = 1 from rfl]
  norm_num

theorem hcov2C1 : cov_det 4 xC1 (fun i => pxC1 i / pzC1 i) (fun i => |wC1 i|) = 20 / 9 := by
  simp only [cov_det, Finset.sum_range_succ, Finset.sum_range_zero]
  rw [show xC1 0 = -2 from rfl, show xC1 1 = 2 from rfl, show xC1 2 = -2 from rfl,
    show xC1 3 = 2 from rfl, show pxC1 0 = 1 from rfl, show pxC1 1 = 1 from rfl,
    show pxC1 2 = 2 from rfl, show pxC1 3 = 2 from rfl, show pzC1 0 = 1 from rfl,
    show pzC1 1 = 2 from rfl, show pzC1 2 = 2 from rfl, show pzC1 3 = 1 from rfl,
    show wC1 0 = 1 from rfl, show wC1 1 = 1 from rfl, show wC1 2 = 1 from rfl,
    show wC1 3 = 2 from rfl]
  norm_num

theorem hem1C1 (rsqrt : ℚ → ℚ) :
    transverse_trace_space_rms_emittance rsqrt 4 xC1 pxC1 wC1 pzC1 (fun _ => 1)
      false = rsqrt 2 := by
  show (if 1 < 4 then
      rsqrt (cov_det 4 xC1 (fun i => pxC1 i / pzC1 i) (fun i => |(1 : ℚ)|))
    else 0) = rsqrt 2
  rw [if_pos (by norm_num)]
  rw [show (fun i : ℕ => |(1 : ℚ)|) = (fun _ : ℕ => |(1 : ℚ)|) from rfl]
  rw [hcov1C1]

theorem hem2C1 (rsqrt : ℚ → ℚ) :
    transverse_trace_space_rms_emittance rsqrt 4 xC1 pxC1 pyC1 pzC1 wC1
      false = rsqrt (20 / 9) := by
  show (if 1 < 4 then
      rsqrt (cov_det 4 xC1 (fun i => pxC1 i / pzC1 i) (fun i => |wC1 i|))
    else 0) = rsqrt (20 / 9)
  rw [if_pos (by norm_num), hcov2C1]

theorem habcode (rsqrt : ℚ → ℚ) :
    (twiss_parameters rsqrt 4 xC1 pxC1 pzC1 wC1 (fun _ => 1) Emitt.tr false).a =
      -(1 / 4) / rsqrt 2 ∧
    (twiss_parameters rsqrt 4 xC1 pxC1 pzC1 wC1 (fun _ => 1) Emitt.tr false).b =
      4 / rsqrt 2 := by
  have havgx : avgw 4 xC1 (fun _ => 1) = 0 := by
    unfold avgw
    simp only [Finset.sum_range_succ, Finset.sum_range_zero]
    rw [show xC1 0 = -2 from rfl, show xC1 1 = 2 from rfl,
      show xC1 2 = -2 from rfl, show xC1 3 = 2 from rfl]
    norm_num
  have havgxp : avgw 4 (fun i => pxC1 i / pzC1 i) (fun _ => 1) = 9 / 8 := by
    unfold avgw
    simp only [Finset.sum_range_succ, Finset.sum_range_zero]
    rw [show pxC1 0 = 1 from rfl, show pxC1 1 = 1 from rfl,
      show pxC1 2 = 2 from rfl, show pxC1 3 = 2 from rfl,
      show pzC1 0 = 1 from rfl, show pzC1 1 = 2 from rfl,
      show pzC1 2 = 2 from rfl, show pzC1 3 = 1 from rfl]
    norm_num
  constructor
  · show -(avgw 4 (fun i =>
        (xC1 i - avgw 4 xC1 (fun _ => 1)) *
          ((pxC1 i / pzC1 i) - avgw 4 (fun i => pxC1 i / pzC1 i) (fun _ => 1)))
          (fun _ => 1)) /
      transverse_trace_space_rms_emittance rsqrt 4 xC1 pxC1 wC1 pzC1 (fun _ => 1)
        false = -(1 / 4) / rsqrt 2
    rw [hem1C1 rsqrt, havgx, havgxp]
    congr 1
    unfold avgw
    simp only [Finset.sum_range_succ, Finset.sum_range_zero]
    rw [show xC1 0 = -2 from rfl, show xC1 1 = 2 from rfl,
      show xC1 2 = -2 from rfl, show xC1 3 = 2 from rfl,
      show pxC1 0 = 1 from rfl, show pxC1 1 = 1 from rfl,
      show pxC1 2 = 2 from rfl, show pxC1 3 = 2 from rfl,
      show pzC1 0 = 1 from rfl, show pzC1 1 = 2 from rfl,
      show pzC1 2 = 2 from rfl, show pzC1 3 = 1 from rfl]
    norm_num
  · show (avgw 4 (fun i => (xC1 i - avgw 4 xC1 (fun _ => 1)) ^ 2) (fun _ => 1)) /
      transverse_trace_space_rms_emittance rsqrt 4 xC1 pxC1 wC1 pzC1 (fun _ => 1)
        false = 4 / rsqrt 2
    rw [hem1C1 rsqrt, havgx]
    congr 1
    unfold avgw
    simp only [Finset.sum_range_succ, Finset.sum_range_zero]
    rw [show xC1 0 = -2 from rfl, show xC1 1 = 2 from rfl,
      show xC1 2 = -2 from rfl, show xC1 3 = 2 from rfl]
    norm_num

theorem habclaim (rsqrt : ℚ → ℚ) :
    (twiss_parameters rsqrt 4 xC1 pxC1 pzC1 pyC1 wC1 Emitt.tr false).a =
      -(12 / 25) / rsqrt (20 / 9) ∧
    (twiss_parameters rsqrt 4 xC1 pxC1 pzC1 pyC1 wC1 Emitt.tr false).b =
      (96 / 25) / rsqrt (20 / 9) := by
  have havgx : avgw 4 xC1 wC1 = 2 / 5 := by
    unfold avgw
    simp only [Finset.sum_range_succ, Finset.sum_range_zero]
    rw [show xC1 0 = -2 from rfl, show xC1 1 = 2 from rfl,
      show xC1 2 = -2 from rfl, show xC1 3 = 2 from rfl,
      show wC1 0 = 1 from rfl, show wC1 1 = 1 from rfl,
      show wC1 2 = 1 from rfl, show wC1 3 = 2 from rfl]
    norm_num
  have havgxp : avgw 4 (fun i => pxC1 i / pzC1 i) wC1 = 13 / 10 := by
    unfold avgw
    simp only [Finset.sum_range_succ, Finset.sum_range_zero]
    rw [show pxC1 0 = 1 from rfl, show pxC1 1 = 1 from rfl,
      show pxC1 2 = 2 from rfl, show pxC1 3 = 2 from rfl,
      show pzC1 0 = 1 from rfl, show pzC1 1 = 2 from rfl,
      show pzC1 2 = 2 from rfl, show pzC1 3 = 1 from rfl,
      show wC1 0 = 1 from rfl, show wC1 1 = 1 from rfl,
      show wC1 2 = 1 from rfl, show wC1 3 = 2 from rfl]
    norm_num
  constructor
  · show -(avgw 4 (fun i =>
        (xC1 i - avgw 4 xC1 wC1) *
          ((pxC1 i / pzC1 i) - avgw 4 (fun i => pxC1 i / pzC1 i) wC1)) wC1) /
      transverse_trace_space_rms_emittance rsqrt 4 xC1 pxC1 pyC1 pzC1 wC1
        false = -(12 / 25) / rsqrt (20 / 9)
    rw [hem2C1 rsqrt, havgx, havgxp]
    congr 1
    unfold avgw
    simp only [Finset.sum_range_succ, Finset.sum_range_zero]
    rw [show xC1 0 = -2 from rfl, show xC1 1 = 2 from rfl,
      show xC1 2 = -2 from rfl, show xC1 3 = 2 from rfl,
      show pxC1 0 = 1 from rfl, show pxC1 1 = 1 from rfl,
      show pxC1 2 = 2 from rfl, show pxC1 3 = 2 from rfl,
      show pzC1 0 = 1 from rfl, show pzC1 1 = 2 from rfl,
      show pzC1 2 = 2 from rfl, show pzC1 3 = 1 from rfl,
      show wC1 0 = 1 from rfl, show wC1 1 = 1 from rfl,
      show wC1 2 = 1 from rfl, show wC1 3 = 2 from rfl]
    norm_num
  · show (avgw 4 (fun i => (xC1 i - avgw 4 xC1 wC1) ^ 2) wC1) /
      transverse_trace_space_rms_emittance rsqrt 4 xC1 pxC1 pyC1 pzC1 wC1
        false = (96 / 25) / rsqrt (20 / 9)
    rw [hem2C1 rsqrt, havgx]
    congr 1
    unfold avgw
    simp only [Finset.sum_range_succ, Finset.sum_range_zero]
    rw [show xC1 0 = -2 from rfl, show xC1 1 = 2 from rfl,
      show xC1 2 = -2 from rfl, show xC1 3 = 2 from rfl,
      show wC1 0 = 1 from rfl, show wC1 1 = 1 from rfl,
      show wC1 2 = 1 from rfl, show wC1 3 = 2 from rfl]
    norm_num

theorem hclaimC1 (rsqrt : ℚ → ℚ) (hsq : ∀ a : ℚ, 0 ≤ a → rsqrt (a ^ 2) = a) :
    twiss_parameters_corrected_claim rsqrt 4 xC1 pxC1 pyC1 pzC1 wC1 =
      twiss_parameters rsqrt 4 xC1 pxC1 pzC1 pyC1 wC1 Emitt.tr false := by
  show twiss_parameters rsqrt 4
    (fun i => xC1 i -
      polyfit_lin_slope 4 (dgamma_arr rsqrt 4 pxC1 pyC1 pzC1 wC1) xC1 wC1 *
        dgamma_arr rsqrt 4 pxC1 pyC1 pzC1 wC1 i)
    (fun i => ((pxC1 i / pzC1 i) -
      polyfit_lin_slope 4 (dgamma_arr rsqrt 4 pxC1 pyC1 pzC1 wC1)
          (fun i => pxC1 i / pzC1 i) wC1 *
        dgamma_arr rsqrt 4 pxC1 pyC1 pzC1 wC1 i) * pzC1 i)
    pzC1 pyC1 wC1 Emitt.tr false = _
  rw [slope1C1 rsqrt hsq, slope2C1 rsqrt hsq]
  have hx : (fun i => xC1 i - 0 * dgamma_arr rsqrt 4 pxC1 pyC1 pzC1 wC1 i) = xC1 := by
    funext i; ring
  have hpx : (fun i => ((pxC1 i / pzC1 i) -
      0 * dgamma_arr rsqrt 4 pxC1 pyC1 pzC1 wC1 i) * pzC1 i) = pxC1 := by
    funext i
    by_cases hi : i < 4
    · interval_cases i <;>
        · rw [show (0:ℚ) * dgamma_arr rsqrt 4 pxC1 pyC1 pzC1 wC1 _ = 0 by ring]
          norm_num [pxC1, pzC1]
    · have h4 : 4 ≤ i := by omega
      simp only [pxC1, pzC1]
      rw [List.getD_eq_default _ _ (by simpa using h4),
        List.getD_eq_default _ _ (by simpa using h4)]
      ring
  rw [hx, hpx]

/-- Claim C1 is violated by the code: on the concrete ensemble
`xC1, pxC1, pyC1, pzC1` with non-uniform weights `wC1`, the result of
`twiss_parameters_corrected` — whose final delegation
`twiss_parameters(x, px, pz, w)` positionally binds `w` to the unused `py`
parameter and computes with the default weight 1 — differs (already in the
`(alpha, beta)` pair) from the claim's model `twiss_parameters_corrected_claim`,
which delegates with the same weights `w`.  The statement holds for every
square root function that is exact on perfect squares (the correction slopes
and both emittance determinants here are then fixed: the determinants are
`2` and `20/9`) and is nonzero on those two positive determinants, as the
real square root is. -/
theorem twiss_corrected_delegation_drops_weights (rsqrt : ℚ → ℚ)
    (hsq : ∀ a : ℚ, 0 ≤ a → rsqrt (a ^ 2) = a)
    (h1 : rsqrt 2 ≠ 0) (h2 : rsqrt (20 / 9) ≠ 0) :
    ¬ ((twiss_parameters_corrected rsqrt 4 xC1 pxC1 pyC1 pzC1 wC1).a =
          (twiss_parameters_corrected_claim rsqrt 4 xC1 pxC1 pyC1 pzC1 wC1).a ∧
        (twiss_parameters_corrected rsqrt 4 xC1 pxC1 pyC1 pzC1 wC1).b =
          (twiss_parameters_corrected_claim rsqrt 4 xC1 pxC1 pyC1 pzC1 wC1).b) := by
  rw [hcodeC1 rsqrt hsq, hclaimC1 rsqrt hsq]
  obtain ⟨ha1, hb1⟩ := habcode rsqrt
  obtain ⟨ha2, hb2⟩ := habclaim rsqrt
  rw [ha1, hb1, ha2, hb2]
  rintro ⟨ha, hb⟩
  field_simp at ha hb
  have he : rsqrt 2 = 0 := by linarith
  exact h1 he

theorem twiss_corrected_delegation_drops_weights_witness :
    ¬ ((twiss_parameters_corrected ratSqrt 4 xC1 pxC1 pyC1 pzC1 wC1).a =
          (twiss_parameters_corrected_claim ratSqrt 4 xC1 pxC1 pyC1 pzC1 wC1).a ∧
        (twiss_parameters_corrected ratSqrt 4 xC1 pxC1 pyC1 pzC1 wC1).b =
          (twiss_parameters_corrected_claim ratSqrt 4 xC1 pxC1 pyC1 pzC1 wC1).b) :=
  twiss_corrected_delegation_drops_weights ratSqrt (fun _ ha => ratSqrt_sq ha)
    (ne_of_gt (ratSqrt_pos (by norm_num)))
    (ne_of_gt (ratSqrt_pos (by norm_num)))

end APtools
